import Mathlib

/-!
# Verification of the SQL workload analyzer (`src/scripts/sql_static.py`)

This file is a shallow embedding, in Lean 4, of the workload analyzer
`build_context_pack` and its helpers from `sql_static.py`, together with
proofs and refutations of the specification claims about it.

Modelling conventions:

* Python strings are Lean `String`s; all string functions used by the
  analyzer (the `PHYS_RX` regex, quote stripping, `str.split('.')`,
  `str.lower()`, …) are re-implemented over `List Char` so that they are
  executable and kernel-friendly.
* Python `dict`s / `Counter`s are insertion-ordered association lists
  (`CMap` below); `dict[k] += v` is `cadd`, missing keys read as `0`.
* The external SQL parser (sqlglot, declared out of scope by the spec,
  which specifies it only at its interface) is a parameter
  `parse : String → Except Unit QStmt` of the analyzer.  Concrete
  scenarios instantiate it with `parseTrino`, a table mapping the
  scenario SQL texts to the syntax trees sqlglot produces for them.
* Python exceptions are `Except Unit`; the analyzer's only uncaught
  exception site (the tuple unpacking in
  `_extract_default_catalog_schema_from_ddl`) is modelled with `Except`.
-/

set_option maxHeartbeats 1000000

namespace SqlStatic

/-! ## Characters, segments and the `PHYS_RX` regex -/

/-- A character of the regex class `[A-Za-z0-9_]` (the `PHYS_RX` segments). -/
def wordChar (c : Char) : Bool :=
  (('a' ≤ c && c ≤ 'z') || ('A' ≤ c && c ≤ 'Z') || ('0' ≤ c && c ≤ '9') || c = '_')

/-- Split a character list at every `'.'` (the semantics of Python's
`"…".split('.')`): always returns a non-empty list of segments. -/
def splitDots : List Char → List (List Char)
  | [] => [[]]
  | c :: rest =>
    if c = '.' then [] :: splitDots rest
    else
      match splitDots rest with
      | [] => [[c]]
      | h :: t => (c :: h) :: t

theorem splitDots_nil : splitDots [] = [[]] := rfl

theorem splitDots_dot (b : List Char) : splitDots ('.' :: b) = [] :: splitDots b := by
  simp [splitDots]

theorem splitDots_ne_nil (l : List Char) : splitDots l ≠ [] := by
  induction l with
  | nil => simp [splitDots]
  | cons c rest ih =>
    simp only [splitDots]
    split
    · simp
    · split <;> simp

theorem splitDots_cons_ne (c : Char) (b : List Char) (hc : c ≠ '.') :
    splitDots (c :: b) =
      match splitDots b with
      | [] => [[c]]
      | h :: t => (c :: h) :: t := by
  simp [splitDots, hc]

theorem splitDots_append (a b : List Char) :
    splitDots (a ++ '.' :: b) = splitDots a ++ splitDots b := by
  induction a with
  | nil => simp [splitDots_nil, splitDots_dot]
  | cons c rest ih =>
    by_cases hc : c = '.'
    · subst hc
      rw [List.cons_append, splitDots_dot, ih, splitDots_dot, List.cons_append]
    · rcases h : splitDots rest with _ | ⟨h1, t1⟩
      · exact absurd h (splitDots_ne_nil rest)
      · rw [List.cons_append, splitDots_cons_ne c _ hc, ih, h,
          splitDots_cons_ne c _ hc, h]
        simp

/-- Dot-segments of a string. -/
def segsOf (s : String) : List (List Char) := splitDots s.data

/-- `_is_phys`: the string matches
`^([A-Za-z0-9_]+\.)?[A-Za-z0-9_]+\.[A-Za-z0-9_]+$`, i.e. it consists of 2
or 3 non-empty word segments joined by dots.  (The Python code first
strips the name; the names the analyzer tests are never padded, and the
stripping is part of `normId` where it matters.) -/
def isPhys (s : String) : Bool :=
  let ps := segsOf s
  (ps.length = 2 || ps.length = 3) && ps.all (fun p => !p.isEmpty && p.all wordChar)

/-- ASCII whitespace (model of the characters `str.strip()` removes). -/
def wsChar (c : Char) : Bool := c = ' ' || c = '\t' || c = '\n' || c = '\r'

def trimChars (l : List Char) : List Char :=
  ((l.dropWhile wsChar).reverse.dropWhile wsChar).reverse

def quoteChar (c : Char) : Bool := c = Char.ofNat 34 || c = Char.ofNat 96

/-- `_normalize_identifier`: strip, then delete the quote characters `"`
and the backquote everywhere. -/
def normId (s : String) : String := ⟨(trimChars s.data).filter (fun c => !quoteChar c)⟩

def lowChar (c : Char) : Char :=
  if 'A' ≤ c && c ≤ 'Z' then Char.ofNat (c.toNat + 32) else c

def upChar (c : Char) : Char :=
  if 'a' ≤ c && c ≤ 'z' then Char.ofNat (c.toNat - 32) else c

/-- Model of Python `str.lower()` (ASCII fragment). -/
def lowerStr (s : String) : String := ⟨s.data.map lowChar⟩

/-- Model of Python `str.upper()` (ASCII fragment). -/
def upperStr (s : String) : String := ⟨s.data.map upChar⟩

/-- `".".join parts` for a list of parts. -/
def dotJoin : List String → String
  | [] => ""
  | [x] => x
  | x :: xs => x ++ "." ++ dotJoin xs

/-- The parts `[p for p in parts if p]` of an optional-catalog name. -/
def keepTruthy (l : List String) : List String := l.filter (fun s => s ≠ "")

/-! ## Insertion-ordered maps (Python `dict` / `Counter` / `defaultdict`) -/

/-- An insertion-ordered string-keyed counter. -/
abbrev CMap := List (String × Int)

/-- `m[k] += v` with default `0` (Counter / defaultdict(int) semantics):
updates in place, or appends at the end on first insertion. -/
def cadd : CMap → String → Int → CMap
  | [], k, v => [(k, v)]
  | (k', v') :: rest, k, v =>
    if k' = k then (k', v' + v) :: rest else (k', v') :: cadd rest k v

/-- `m.get(k, 0)`. -/
def cget : CMap → String → Int
  | [], _ => 0
  | (k', v) :: rest, k => if k' = k then v else cget rest k

/-- Keyed lists of strings, also insertion ordered (alias maps …). -/
abbrev LMap := List (String × List String)

def lookupL : LMap → String → Option (List String)
  | [], _ => none
  | (k', v) :: rest, k => if k' = k then some v else lookupL rest k

/-- `m[k] = v` (assignment, not increment). -/
def lset : LMap → String → List String → LMap
  | [], k, v => [(k, v)]
  | (k', v') :: rest, k, v =>
    if k' = k then (k', v) :: rest else (k', v') :: lset rest k v

/-- A plain string-to-string map (the short-name index). -/
abbrev SMap := List (String × String)

def lookupS : SMap → String → Option String
  | [], _ => none
  | (k', v) :: rest, k => if k' = k then some v else lookupS rest k

/-- Nested counters: `defaultdict(Counter)` for the short-name votes and
the per-table column counters. -/
abbrev NMap := List (String × CMap)

def nadd : NMap → String → String → Int → NMap
  | [], k, k2, v => [(k, cadd [] k2 v)]
  | (k', m) :: rest, k, k2, v =>
    if k' = k then (k', cadd m k2 v) :: rest else (k', m) :: nadd rest k k2 v

/-- Pair-keyed counter for the join edge weights. -/
abbrev PMap := List ((String × String) × Int)

def padd : PMap → (String × String) → Int → PMap
  | [], k, v => [(k, v)]
  | (k', v') :: rest, k, v =>
    if k' = k then (k', v' + v) :: rest else (k', v') :: padd rest k v

def pget : PMap → (String × String) → Int
  | [], _ => 0
  | (k', v) :: rest, k => if k' = k then v else pget rest k

/-- First-occurrence deduplication (the order-stable content of a Python
`set` built by successive `add`s). -/
def firstDedup (l : List String) : List String := go [] l where
  go (seen : List String) : List String → List String
    | [] => []
    | x :: xs => if x ∈ seen then go seen xs else x :: go (x :: seen) xs

/-- `Counter.most_common(1)[0][0]`: the key with the largest count,
ties broken by insertion order (Python's `nlargest` is stable). -/
def mostCommonKey (default : String) : CMap → String
  | [] => default
  | (k, v) :: rest => go k v rest where
    go (bk : String) (bv : Int) : CMap → String
      | [] => bk
      | (k, v) :: rest => if bv < v then go k v rest else go bk bv rest

/-- A stable insertion sort: `pyLe a b` means `a` may stay before `b`.
With `pyLe a b := key b ≤ key a` this is Python's
`sorted(l, key=key, reverse=True)` (stable on ties). -/
def stableInsert (pyLe : α → α → Bool) (x : α) : List α → List α
  | [] => [x]
  | y :: ys => if pyLe y x then y :: stableInsert pyLe x ys else x :: y :: ys

def stableSortBy (pyLe : α → α → Bool) (l : List α) : List α :=
  l.foldl (fun acc x => stableInsert pyLe x acc) []

/-! ## The syntax-tree interface of the external SQL parser

The spec (§1, §2) treats the SQL parser as an external collaborator that
"turns SQL text into an abstract syntax tree of standard node kinds".
`QExpr` is that interface: the node kinds the analyzer dispatches on
(`E.Table`, `E.Column`, `E.Select`, `E.Join`, `E.CTE`, `E.Subquery`,
`E.Alias`, `E.Paren`, `E.EQ`, `E.Window`, `E.Group`, set operations), with
identifier contents stored as strings (sqlglot `Identifier.name`). -/

inductive QExpr where
  | tbl (tName : String) (tDb tCatalog tAl : Option String)
  | col (cName : String) (cQual : Option String)
  | star
  | lit (text : String)
  | eqE (l r : QExpr)
  | paren (inner : QExpr)
  | aliasE (inner : QExpr) (aName : Option String)
  | subq (inner : QExpr) (sAl : Option String)
  | joinE (this : QExpr) (onE : Option QExpr)
  | winE (fname : String) (wArgs : List QExpr)
  | groupE (gExprs : List QExpr)
  | cteE (cAl : String) (inner : QExpr)
  | setE (l r : QExpr)
  | func (fArgs : List QExpr)
  | selectE (ctes exprs : List QExpr) (fromE : Option QExpr)
      (joins : List QExpr) (whereE : Option QExpr) (groups : List QExpr)

/-- The child sub-expressions of a node (`expression.args`), in argument
order. -/
def children : QExpr → List QExpr
  | .tbl .. | .col .. | .star | .lit _ => []
  | .eqE l r => [l, r]
  | .paren i => [i]
  | .aliasE i _ => [i]
  | .subq i _ => [i]
  | .joinE t o => [t] ++ o.toList
  | .winE _ as => as
  | .groupE es => es
  | .cteE _ i => [i]
  | .setE l r => [l, r]
  | .func as => as
  | .selectE cs es f js w gs => cs ++ es ++ f.toList ++ js ++ w.toList ++ gs

theorem sizeOf_lt_of_mem_opt {c : QExpr} {o : Option QExpr} (h : c ∈ o.toList) :
    sizeOf c < sizeOf o := by
  cases o with
  | none => simp at h
  | some oe => simp at h; subst h; simp; try omega

theorem sizeOf_lt_of_mem_children {c e : QExpr} (h : c ∈ children e) :
    sizeOf c < sizeOf e := by
  cases e <;> simp only [children] at h <;>
    try exact absurd h (List.not_mem_nil _)
  case eqE l r =>
    rcases List.mem_cons.mp h with rfl | h
    · simp; try omega
    · rcases List.mem_cons.mp h with rfl | h
      · simp; try omega
      · simp at h
  case paren i => rcases List.mem_singleton.mp h with rfl; simp; try omega
  case aliasE i a => rcases List.mem_singleton.mp h with rfl; simp; try omega
  case subq i a => rcases List.mem_singleton.mp h with rfl; simp; try omega
  case joinE t o =>
    rcases List.mem_append.mp h with h | h
    · rcases List.mem_singleton.mp h with rfl; simp; try omega
    · have := sizeOf_lt_of_mem_opt h; simp; try omega
  case winE f as => have := List.sizeOf_lt_of_mem h; simp; try omega
  case groupE es => have := List.sizeOf_lt_of_mem h; simp; try omega
  case cteE a i => rcases List.mem_singleton.mp h with rfl; simp; try omega
  case setE l r =>
    rcases List.mem_cons.mp h with rfl | h
    · simp; try omega
    · rcases List.mem_cons.mp h with rfl | h
      · simp; try omega
      · simp at h
  case func as => have := List.sizeOf_lt_of_mem h; simp; try omega
  case selectE cs es f js w gs =>
    have hs : sizeOf (QExpr.selectE cs es f js w gs) =
        1 + sizeOf cs + sizeOf es + sizeOf f + sizeOf js + sizeOf w + sizeOf gs := by
      simp
    rcases List.mem_append.mp h with h | h
    · rcases List.mem_append.mp h with h | h
      · rcases List.mem_append.mp h with h | h
        · rcases List.mem_append.mp h with h | h
          · rcases List.mem_append.mp h with h | h
            · have := List.sizeOf_lt_of_mem h; omega
            · have := List.sizeOf_lt_of_mem h; omega
          · have := sizeOf_lt_of_mem_opt h; omega
        · have := List.sizeOf_lt_of_mem h; omega
      · have := sizeOf_lt_of_mem_opt h; omega
    · have := List.sizeOf_lt_of_mem h; omega

mutual

/-- A computable node-count measure (the derived `sizeOf` of the nested
inductive has no executable code, so the fuel below uses this one).
Every node counts 1, so `qsize` strictly exceeds the subtree depth and
strictly decreases from a node to each of its children. -/
def qsize : QExpr → Nat
  | .tbl .. | .col .. | .star | .lit _ => 1
  | .eqE l r => 1 + qsize l + qsize r
  | .paren i => 1 + qsize i
  | .aliasE i _ => 1 + qsize i
  | .subq i _ => 1 + qsize i
  | .joinE t o => 1 + qsize t + qsizeO o
  | .winE _ as => 1 + qsizeL as
  | .groupE es => 1 + qsizeL es
  | .cteE _ i => 1 + qsize i
  | .setE l r => 1 + qsize l + qsize r
  | .func as => 1 + qsizeL as
  | .selectE cs es f js w gs =>
    1 + qsizeL cs + qsizeL es + qsizeO f + qsizeL js + qsizeO w + qsizeL gs

def qsizeL : List QExpr → Nat
  | [] => 0
  | x :: xs => qsize x + qsizeL xs

def qsizeO : Option QExpr → Nat
  | none => 0
  | some x => qsize x
end

/-- All nodes of a subtree, root first, with a structural fuel argument
so that the traversal reduces in the kernel.  Every child has a strictly
smaller `qsize`, so fuel `qsize e` never runs out. -/
def subNodesF : Nat → QExpr → List QExpr
  | 0, _ => []
  | fuel + 1, e => e :: (children e).flatMap (subNodesF fuel)

/-- All nodes of a subtree, root first (the node set over which the
various `find_all` traversals range; the analyzer's results do not depend
on whether that set is enumerated breadth- or depth-first, see the
comments at the use sites). -/
def subNodes (e : QExpr) : List QExpr := subNodesF (qsize e) e

end SqlStatic

namespace SqlStatic

/-! ## String comparison (Python `<` on strings: codepoint lexicographic) -/

def cmpChars : List Char → List Char → Ordering
  | [], [] => .eq
  | [], _ :: _ => .lt
  | _ :: _, [] => .gt
  | a :: as, b :: bs =>
    if a.toNat < b.toNat then .lt
    else if b.toNat < a.toNat then .gt
    else cmpChars as bs

/-- Python string comparison (lexicographic by code point). -/
def strCmp (a b : String) : Ordering := cmpChars a.data b.data

def strLtB (a b : String) : Bool := strCmp a b = Ordering.lt

/-- Python `tuple(sorted((a, b)))`. -/
def pySortPair (a b : String) : String × String :=
  if strLtB b a then (b, a) else (a, b)

theorem charToNat_inj {x y : Char} (h : x.toNat = y.toNat) : x = y :=
  Char.ext (by apply UInt32.ext; exact h)

theorem cmpChars_eq_iff (a b : List Char) : cmpChars a b = Ordering.eq ↔ a = b := by
  induction a generalizing b with
  | nil => cases b <;> simp [cmpChars]
  | cons x xs ih =>
    cases b with
    | nil => simp [cmpChars]
    | cons y ys =>
      simp only [cmpChars]
      by_cases h1 : x.toNat < y.toNat
      · have hxy : x ≠ y := fun he => by subst he; omega
        simp [if_pos h1, hxy]
      · by_cases h2 : y.toNat < x.toNat
        · have hxy : x ≠ y := fun he => by subst he; omega
          simp [if_neg h1, if_pos h2, hxy]
        · have hxy : x = y := charToNat_inj (by omega)
          subst hxy
          simp [if_neg h1, if_neg h2, ih]

theorem cmpChars_swap_lt (a b : List Char) :
    cmpChars a b = Ordering.lt ↔ cmpChars b a = Ordering.gt := by
  induction a generalizing b with
  | nil => cases b <;> simp [cmpChars]
  | cons x xs ih =>
    cases b with
    | nil => simp [cmpChars]
    | cons y ys =>
      simp only [cmpChars]
      by_cases h1 : x.toNat < y.toNat
      · have h2 : ¬ y.toNat < x.toNat := by omega
        simp [h1, h2]
      · by_cases h2 : y.toNat < x.toNat
        · simp [h1, h2]
        · simp [h1, h2, ih]

/-- On distinct strings `pySortPair` puts the smaller first. -/
theorem pySortPair_sorted (a b : String) (h : a ≠ b) :
    strLtB (pySortPair a b).1 (pySortPair a b).2 = true := by
  unfold pySortPair
  by_cases hlt : strLtB b a = true
  · simp [hlt]
  · rw [if_neg (by simp [hlt])]
    rcases hc : cmpChars a.data b.data with _ | _ | _
    · simp [strLtB, strCmp, hc]
    · have hd : a.data = b.data := (cmpChars_eq_iff _ _).mp hc
      exact absurd (by cases a; cases b; exact congrArg String.mk hd) h
    · rw [← cmpChars_swap_lt] at hc
      exact absurd (by simp [strLtB, strCmp, hc]) hlt

/-! ## Python scalar values and input records

The raw inputs of `build_context_pack` are lists of JSON-ish dicts.  The
analyzer reads a fixed set of keys; `RawDDL` / `RawQuery` carry exactly
those keys with Python truthiness (`PyVal`) semantics. -/

inductive PyVal where
  | pint (n : Int)
  | pstr (s : String)

def pyTruthy : PyVal → Bool
  | .pint n => n ≠ 0
  | .pstr s => s ≠ ""

/-- `a or b or …`: the first truthy value (`none` when all are falsy,
which the callers below treat exactly like Python's falsy results). -/
def pyOrChain : List (Option PyVal) → Option PyVal
  | [] => none
  | none :: rest => pyOrChain rest
  | some v :: rest => if pyTruthy v then some v else pyOrChain rest

def pyToStr : PyVal → String
  | .pstr s => s
  | .pint n => toString n

def digitChar (c : Char) : Bool := '0' ≤ c && c ≤ '9'

def digitsVal (l : List Char) : Int :=
  l.foldl (fun acc c => acc * 10 + (Int.ofNat (c.toNat - 48))) 0

/-- Python `int(str)`: optional sign and decimal digits, surrounded by
whitespace; anything else raises (modelled as `none`). -/
def parsePyInt (s : String) : Option Int :=
  let t := trimChars s.data
  match t with
  | '-' :: ds => if ds ≠ [] && ds.all digitChar then some (-(digitsVal ds)) else none
  | '+' :: ds => if ds ≠ [] && ds.all digitChar then some (digitsVal ds) else none
  | ds => if ds ≠ [] && ds.all digitChar then some (digitsVal ds) else none

/-- Python `int(v)` on an ingested scalar. -/
def pyInt : PyVal → Option Int
  | .pint n => some n
  | .pstr s => parsePyInt s

structure RawDDL where
  rStatement : Option PyVal
  rDdl : Option PyVal
  rSql : Option PyVal

structure RawQuery where
  rQueryid : Option PyVal
  rQueryId : Option PyVal
  rId : Option PyVal
  rQid : Option PyVal
  rQuery : Option PyVal
  rRunquantity : Option PyVal
  rRunQuantity : Option PyVal
  rRunCount : Option PyVal

structure DDLStmt where
  statement : String

structure QueryStat where
  queryid : String
  query : String
  runquantity : Int

/-- `_to_ddl_list`: keep records whose first truthy statement-ish value is
a (truthy) string. -/
def toDDLList (l : List RawDDL) : List DDLStmt :=
  l.flatMap fun d =>
    match pyOrChain [d.rStatement, d.rDdl, d.rSql] with
    | some (.pstr s) => if s ≠ "" then [⟨s⟩] else []
    | _ => []

/-- `_to_query_stat_list`: id from `queryid|queryId|id|qid`, text from
`query` (fallback `"SELECT 1"`), weight from
`runquantity|runQuantity|run_count` (fallback `1`; `int()` failure → 1). -/
def toQueryStatList (l : List RawQuery) : List QueryStat :=
  l.flatMap fun q =>
    match pyOrChain [q.rQueryid, q.rQueryId, q.rId, q.rQid] with
    | none => []
    | some qv =>
      let txt := match q.rQuery with
        | some (.pstr s) => if trimChars s.data ≠ [] then s else "SELECT 1"
        | _ => "SELECT 1"
      let rq := match pyOrChain [q.rRunquantity, q.rRunQuantity, q.rRunCount] with
        | none => 1
        | some v => match pyInt v with
          | some n => n
          | none => 1
      [⟨pyToStr qv, txt, rq⟩]

/-! ## Table references -/

/-- The sqlglot `Table` node data: identifier contents of `this`, `db`,
`catalog` and the table alias (absent parts are `none`). -/
structure TableN where
  tName : String
  tDb : Option String
  tCatalog : Option String
  tAl : Option String

@[ext] structure TableRef where
  catalog : Option String
  schema : String
  table : String

/-- `TableRef.fqtn`: join the truthy parts with dots. -/
def fqtnOf (tr : TableRef) : String :=
  dotJoin (keepTruthy ((match tr.catalog with | some c => [c] | none => []) ++
    [tr.schema, tr.table]))

/-- `x or (default or None)` on optional strings. -/
def pyOrOpt (x d : Option String) : Option String :=
  match x with
  | some s => if s ≠ "" then some s else (match d with
    | some t => if t ≠ "" then some t else none
    | none => none)
  | none => match d with
    | some t => if t ≠ "" then some t else none
    | none => none

/-- `_make_tabref_from_expr`. -/
def makeTabref (t : TableN) (dc ds : Option String) : Option TableRef :=
  let tn := normId t.tName
  let s0 : Option String := match t.tDb with
    | some d => if d ≠ "" then some (normId d) else none
    | none => none
  let c0 : Option String := match t.tCatalog with
    | some c => if c ≠ "" then some (normId c) else none
    | none => none
  let s1 := pyOrOpt s0 ds
  let c1 := pyOrOpt c0 dc
  match s1 with
  | some s => if tn ≠ "" then some ⟨c1, s, tn⟩ else none
  | none => none

/-- `_alias_name` on a table node (the callers only use its truthiness
and its normalized value, which coincide with this `Option`). -/
def aliasNameOf (t : TableN) : Option String :=
  match t.tAl with
  | some a =>
    if a ≠ "" then (let an := normId a; if an ≠ "" then some an else none) else none
  | none => none

end SqlStatic

namespace SqlStatic

/-! ## Parsed statements and node collectors

`find_all` in sqlglot enumerates the subtree breadth-first.  Every use the
analyzer makes of a `find_all` result is order-insensitive up to the
contents of the final maps (sets, deduplicated lists, or commutative
counter updates into distinct keys), except for tie-breaks that none of
the verified scenarios exercise; the collectors below enumerate the same
node sets in pre-order. -/

/-- `CREATE` statements: `create.this` is either a bare `Table`
(`CREATE TABLE t`) or a `Schema` wrapping the table and its column
definitions (`CREATE TABLE t (…)`); `colsSql` is the rendered column list
(used only by `str(create.this)`). -/
inductive CreateTarget where
  | tblT (t : TableN)
  | schemaT (t : TableN) (colsSql : String)

/-- A parsed top-level statement, as delivered by the external parser. -/
inductive QStmt where
  | qe (e : QExpr)
  | createT (ct : CreateTarget)

def tablesOf (e : QExpr) : List TableN :=
  (subNodes e).filterMap fun n => match n with
    | .tbl tn d c a => some ⟨tn, d, c, a⟩
    | _ => none

def ctesOf (e : QExpr) : List (String × QExpr) :=
  (subNodes e).filterMap fun n => match n with
    | .cteE a i => some (a, i)
    | _ => none

def subqsOf (e : QExpr) : List (QExpr × Option String) :=
  (subNodes e).filterMap fun n => match n with
    | .subq i a => some (i, a)
    | _ => none

def isSelectB : QExpr → Bool
  | .selectE .. => true
  | _ => false

def selectsOf (e : QExpr) : List QExpr := (subNodes e).filter isSelectB

def winNamesOf (e : QExpr) : List String :=
  (subNodes e).filterMap fun n => match n with
    | .winE f _ => some f
    | _ => none

def groupExprsOf (e : QExpr) : List (List QExpr) :=
  (subNodes e).filterMap fun n => match n with
    | .groupE es => some es
    | _ => none

/-- `_walk_eq_pairs`: `(left, right)` of every `EQ` whose two sides are
column nodes; a column is `(raw name, raw table qualifier)`. -/
def walkEqPairs (e : QExpr) : List ((String × Option String) × (String × Option String)) :=
  (subNodes e).filterMap fun n => match n with
    | .eqE (.col ln lq) (.col rn rq) => some ((ln, lq), (rn, rq))
    | _ => none

/-- Columns of a SELECT whose nearest enclosing SELECT is that block
(`sel.find_all(E.Column)` filtered by `_belongs_to_select`): collect
columns but do not descend into nested SELECTs. -/
def colsBelowF : Nat → QExpr → List (String × Option String)
  | 0, _ => []
  | fuel + 1, e =>
    match e with
    | .selectE .. => []
    | .col n q => [(n, q)]
    | e' => (children e').flatMap (colsBelowF fuel)

def colsBelow (e : QExpr) : List (String × Option String) := colsBelowF (qsize e) e

def columnsOfSel (sel : QExpr) : List (String × Option String) :=
  match sel with
  | .selectE cs es f js w gs =>
    (cs ++ es ++ f.toList ++ js ++ w.toList ++ gs).flatMap colsBelow
  | _ => []

def findFirstSubq (e : QExpr) : Option QExpr :=
  (subNodes e).find? fun n => match n with
    | .subq .. => true
    | _ => false

def findFirstSel (e : QExpr) : Option QExpr := (subNodes e).find? isSelectB

/-- SELECT field accessors (empty outside a SELECT node). -/
def selFrom : QExpr → Option QExpr
  | .selectE _ _ f _ _ _ => f
  | _ => none

def selJoins : QExpr → List QExpr
  | .selectE _ _ _ js _ _ => js
  | _ => []

def selWhere : QExpr → Option QExpr
  | .selectE _ _ _ _ w _ => w
  | _ => none

/-- The node kinds `_list_base_tables_from_select` collects from the FROM
subtree: `(E.Table, E.Subquery, E.Select, E.Alias, E.Paren)`. -/
def matchNode : QExpr → Bool
  | .tbl .. | .subq .. | .selectE .. | .aliasE .. | .paren _ => true
  | _ => false

def matchNodes (e : QExpr) : List QExpr := (subNodes e).filter matchNode

/-- `_bases_of_any` / `_list_base_tables_from_select` (mutually recursive
in the source; a SELECT node dispatches to the latter, which re-collects
the matching nodes of its FROM subtree).  The fuel argument makes the
recursion structural: every recursive call is on a node of strictly
smaller `qsize` (a child, or a member of `matchNodes` of a child, whose
`qsize` is at most the child's), so fuel `qsize e` never runs out. -/
def basesOfAnyF (dc ds : Option String) : Nat → QExpr → List String
  | 0, _ => []
  | fuel + 1, e =>
    match e with
    | .tbl tn d c al =>
      (match makeTabref ⟨tn, d, c, al⟩ dc ds with
        | some tr => [fqtnOf tr]
        | none => [normId tn])
    | .subq inner _ =>
      (match inner with
        | .selectE .. => basesOfAnyF dc ds fuel inner
        | _ => [])
    | .selectE _ _ f js w _ =>
      (match f with
        | some fe => (matchNodes fe).flatMap (basesOfAnyF dc ds fuel)
        | none => []) ++
      (js.flatMap (basesOfAnyF dc ds fuel)) ++
      (match w with
        | some we => basesOfAnyF dc ds fuel we
        | none => [])
    | .aliasE inner _ => basesOfAnyF dc ds fuel inner
    | .paren inner => basesOfAnyF dc ds fuel inner
    | .joinE t o =>
      basesOfAnyF dc ds fuel t ++
      (match o with
        | some oe => basesOfAnyF dc ds fuel oe
        | none => [])
    | .setE l r => basesOfAnyF dc ds fuel l ++ basesOfAnyF dc ds fuel r
    | .eqE l r => basesOfAnyF dc ds fuel l ++ basesOfAnyF dc ds fuel r
    | .winE _ as => as.flatMap (basesOfAnyF dc ds fuel)
    | .groupE es => es.flatMap (basesOfAnyF dc ds fuel)
    | .cteE _ i => basesOfAnyF dc ds fuel i
    | .func as => as.flatMap (basesOfAnyF dc ds fuel)
    | .col .. | .star | .lit _ => []

def basesOfAny (dc ds : Option String) (e : QExpr) : List String :=
  basesOfAnyF dc ds (qsize e) e

end SqlStatic

namespace SqlStatic

/-! ## Scope resolution (`_resolve_alias_maps`, `_expand_to_physical`) -/

/-- `_alias_name` (truthiness of the raw alias, then normalization; the
callers only use the truthy result). -/
def aliasNameOfOpt (o : Option String) : Option String :=
  match o with
  | some a =>
    if a ≠ "" then (let an := normId a; if an ≠ "" then some an else none) else none
  | none => none

/-- `_expand_to_physical`: alias → CTE → short-name → phys-looking,
deduplicated in first-occurrence order (`dict.fromkeys`). -/
def expandToPhysical (bases : List String) (aliasM cteM : LMap) (s2f : SMap) :
    List String :=
  firstDedup (bases.flatMap fun b =>
    if b = "" then []
    else match lookupL aliasM b with
      | some xs => xs.filter isPhys
      | none => match lookupL cteM b with
        | some xs => xs.filter isPhys
        | none => match lookupS s2f b with
          | some fq => [fq]
          | none => if isPhys b then [b] else [])

/-- `_resolve_alias_maps`: the CTE map (pass 1), then table aliases /
CTE references (pass 2), then aliased inline subqueries (pass 3).
The CTE name is `cte.find(E.Identifier)`: with sqlglot's breadth-first
`find`, that is the identifier of the CTE's alias. -/
def resolveAliasMaps (tree : QExpr) (dc ds : Option String) : LMap × LMap :=
  let cteM := (ctesOf tree).foldl (fun m (p : String × QExpr) =>
      let name := normId p.1
      let subqOpt := match findFirstSubq p.2 with
        | some sq => some sq
        | none => findFirstSel p.2
      match subqOpt with
      | none => m
      | some sq =>
        let sel := match sq with
          | .subq inner _ => inner
          | other => other
        if isSelectB sel then
          let bases := firstDedup (basesOfAny dc ds sel)
          if bases ≠ [] then lset m name bases else m
        else m) []
  let aliasM := (tablesOf tree).foldl (fun m t =>
      match makeTabref t dc ds, aliasNameOfOpt t.tAl with
      | some tr, some a => lset m a [fqtnOf tr]
      | _, ao =>
        let name := normId t.tName
        if name ≠ "" then
          match lookupL cteM name with
          | some bs =>
            lset m (match ao with
              | some a => a
              | none => name) bs
          | none => m
        else m) []
  let aliasM2 := (subqsOf tree).foldl (fun m (p : QExpr × Option String) =>
      match aliasNameOfOpt p.2 with
      | none => m
      | some al =>
        if isSelectB p.1 then
          let bases := firstDedup (basesOfAny dc ds p.1)
          if bases ≠ [] then lset m al bases else m
        else m) aliasM
  (cteM, aliasM2)

/-! ## Statement-level collectors -/

def createTableOf : CreateTarget → TableN
  | .tblT t => t
  | .schemaT t _ => t

def stmtTablesOf : QStmt → List TableN
  | .qe e => tablesOf e
  | .createT ct => [createTableOf ct]

def stmtSelectsOf : QStmt → List QExpr
  | .qe e => selectsOf e
  | .createT _ => []

def stmtWinNamesOf : QStmt → List String
  | .qe e => winNamesOf e
  | .createT _ => []

def createsOf : QStmt → List CreateTarget
  | .qe _ => []
  | .createT ct => [ct]

/-- `_resolve_alias_maps` applied to a whole parsed statement: on a pure
CREATE statement all three passes produce nothing (the created table has
no alias and no CTE exists). -/
def resolveAliasMapsStmt : QStmt → Option String → Option String → LMap × LMap
  | .qe e, dc, ds => resolveAliasMaps e dc ds
  | .createT _, _, _ => ([], [])

/-! ## DDL handling: defaults, short-name index, ddl_tables -/

/-- `ct.this.find_all(E.Identifier)` on a bare `Table` target, in
sqlglot's argument order `this`, `db`, `catalog`, each normalized. -/
def createIdents (t : TableN) : List String :=
  ([t.tName] ++ (match t.tDb with
    | some d => [d]
    | none => []) ++ (match t.tCatalog with
    | some c => [c]
    | none => [])).map normId

/-- `_split_qualified`. -/
def splitQualified : List String → Option String × Option String × Option String
  | [] => (none, none, none)
  | [a, b, c] => (some a, some b, some c)
  | [a, b] => (none, some a, some b)
  | a :: _ => (none, none, some a)

def strOfTableN (t : TableN) : String :=
  dotJoin ((match t.tCatalog with
    | some c => [c]
    | none => []) ++ (match t.tDb with
    | some d => [d]
    | none => []) ++ [t.tName])

/-- Modelled from the spec: `str(create.this)` — the external parser's
SQL rendering of the create target (the parser is out of scope, spec §1).
A bare table target renders as its dotted name; a column-bearing target
as `name (columns…)`. -/
def strOfCreateTarget : CreateTarget → String
  | .tblT t => strOfTableN t
  | .schemaT t colsSql => strOfTableN t ++ " (" ++ colsSql ++ ")"

def pySplitDots (s : String) : List String := (segsOf s).map (fun l => ⟨l⟩)

/-- `_extract_default_catalog_schema_from_ddl`: catalog and schema from
the first parseable CREATE.  The tuple unpacking
`catalog, schema = str(create.this).split('.')[:2]` raises `ValueError`
when the split yields fewer than two parts — modelled as `.error ()`. -/
def extractDefault (parse : String → Except Unit QStmt) :
    List DDLStmt → Except Unit (Option String × Option String)
  | [] => .ok (none, none)
  | d :: rest =>
    if d.statement = "" then extractDefault parse rest
    else match parse d.statement with
      | .error _ => extractDefault parse rest
      | .ok stmt =>
        match createsOf stmt with
        | [] => extractDefault parse rest
        | ct :: _ =>
          match pySplitDots (strOfCreateTarget ct) with
          | a :: b :: _ => .ok (some a, some b)
          | _ => .error ()

/-- The `short2fqtn_counter` votes: DDL created-table identifiers (only
bare `Table` targets — a column-bearing CREATE has a `Schema` target and
is skipped by the `isinstance(ct.this, E.Table)` guard), then physical
table references spotted in the queries. -/
def shortCounterOf (parse : String → Except Unit QStmt) (ddls : List DDLStmt)
    (qs : List QueryStat) (dc ds : Option String) : NMap :=
  let m1 := ddls.foldl (fun m d =>
    match parse d.statement with
    | .error _ => m
    | .ok stmt => (createsOf stmt).foldl (fun m ct =>
        match ct with
        | .tblT t =>
          let cst := splitQualified (createIdents t)
          (match cst.2.2 with
            | some tv =>
              if tv ≠ "" then
                nadd m tv (dotJoin (keepTruthy [(cst.1).getD "", (cst.2.1).getD "", tv])) 1
              else m
            | none => m)
        | .schemaT .. => m) m) []
  qs.foldl (fun m q =>
    match parse q.query with
    | .error _ => m
    | .ok stmt => (stmtTablesOf stmt).foldl (fun m t =>
        match makeTabref t dc ds with
        | some tr => nadd m tr.table (fqtnOf tr) 1
        | none => m) m) m1

/-- `short2fqtn`: for each bare name, the most frequent full name. -/
def shortIndexOf (parse : String → Except Unit QStmt) (ddls : List DDLStmt)
    (qs : List QueryStat) (dc ds : Option String) : SMap :=
  (shortCounterOf parse ddls qs dc ds).map fun (p : String × CMap) =>
    (p.1, mostCommonKey p.1 p.2)

structure DdlTable where
  dCatalog : Option String
  dSchema : Option String
  dTable : String

/-- `x or default` (the result may be the raw default, even `Some ""`). -/
def pyOrO (x d : Option String) : Option String :=
  match x with
  | some s => if s ≠ "" then some s else d
  | none => d

def ddlTablesOf (parse : String → Except Unit QStmt) (ddls : List DDLStmt)
    (dc ds : Option String) : List DdlTable :=
  ddls.flatMap fun d =>
    match parse d.statement with
    | .error _ => []
    | .ok stmt => (createsOf stmt).flatMap fun ct =>
        match ct with
        | .tblT t =>
          let cst := splitQualified (createIdents t)
          (match cst.2.2 with
            | some tv => if tv ≠ "" then [⟨pyOrO cst.1 dc, pyOrO cst.2.1 ds, tv⟩] else []
            | none => [])
        | .schemaT .. => []

/-- `{**cte_map_phys, **alias_map_phys}`. -/
def pyMerge (a b : LMap) : LMap :=
  (a.map fun (p : String × List String) => (p.1, (lookupL b p.1).getD p.2)) ++
  b.filter (fun p => (lookupL a p.1).isNone)

end SqlStatic

namespace SqlStatic

/-! ## The parse-failure fallback scan -/

/-- One attempt of `\bFROM\s+(([w]+\.)?[w]+\.[w]+)` (case-insensitive) at
the current position: on success returns the captured name and the
remaining input after the match. -/
def tryFromAt (prev : Option Char) (l : List Char) : Option (String × List Char) :=
  let bOk := match prev with
    | none => true
    | some p => !wordChar p
  if !bOk then none
  else match l with
    | c1 :: c2 :: c3 :: c4 :: rest =>
      if lowChar c1 == 'f' && lowChar c2 == 'r' && lowChar c3 == 'o' && lowChar c4 == 'm' then
        let ws := rest.takeWhile wsChar
        if ws.isEmpty then none
        else
          let r0 := rest.drop ws.length
          let s1 := r0.takeWhile wordChar
          if s1.isEmpty then none
          else
            let r1 := r0.drop s1.length
            match r1 with
            | '.' :: r2 =>
              let s2 := r2.takeWhile wordChar
              if s2.isEmpty then none
              else
                let r3 := r2.drop s2.length
                match r3 with
                | '.' :: r4 =>
                  let s3 := r4.takeWhile wordChar
                  if s3.isEmpty then some (String.mk s1 ++ "." ++ String.mk s2, r3)
                  else some (String.mk s1 ++ "." ++ String.mk s2 ++ "." ++ String.mk s3,
                    r4.drop s3.length)
                | _ => some (String.mk s1 ++ "." ++ String.mk s2, r3)
            | _ => none
      else none
    | _ => none

def fromGo : Nat → Option Char → List Char → List String
  | 0, _, _ => []
  | _ + 1, _, [] => []
  | fuel + 1, prev, c :: rest =>
    match tryFromAt prev (c :: rest) with
    | some (nm, rem) => nm :: fromGo fuel (some 'x') rem
    | none => fromGo fuel (some c) rest

/-- `re.findall(r"\bFROM\s+(([A-Za-z0-9_]+\.)?[A-Za-z0-9_]+\.[A-Za-z0-9_]+)",
text, re.I)` — the group-1 captures, left to right, continuing after each
match.  (The char before a continuation point is always a word character;
any representative serves the `\b` test, here `'x'`.) -/
def fallbackScan (s : String) : List String := fromGo (s.data.length + 1) none s.data

/-! ## Per-query scan credits -/

/-- The derived-name map `{**cte_map_phys, **alias_map_phys}` of a parsed
statement. -/
def derivedMapOf (stmt : QStmt) (dc ds : Option String) (s2f : SMap) : LMap :=
  let maps := resolveAliasMapsStmt stmt dc ds
  let cteP := maps.1.map fun (p : String × List String) =>
    (p.1, expandToPhysical p.2 maps.2 maps.1 s2f)
  let aliasP := maps.2.map fun (p : String × List String) =>
    (p.1, expandToPhysical p.2 maps.2 maps.1 s2f)
  pyMerge cteP aliasP

/-- The scan-credit keys a single table node contributes (the body of the
"Count scans" loop of `build_context_pack`). -/
def scanCreditOfTable (dc ds : Option String) (s2f : SMap) (derived : LMap)
    (t : TableN) : List String :=
  match makeTabref t dc ds with
  | some tr => [fqtnOf tr]
  | none =>
    let name := normId t.tName
    if name = "" then []
    else
      let bases := (lookupL derived name).getD []
      if bases ≠ [] then bases.filter isPhys
      else
        match lookupS s2f name with
        | some fq => [fq]
        | none => []

/-- All scan-credit keys of one query, in source order: the regex
fallback when the query does not parse, otherwise the resolved table
nodes of the tree.  `table_scan_freq` adds the query's weight once per
entry of this list, `table_scan_query_freq` once per distinct entry. -/
def creditsOf (parse : String → Except Unit QStmt) (dc ds : Option String)
    (s2f : SMap) (q : QueryStat) : List String :=
  match parse q.query with
  | .error _ => (fallbackScan q.query).filter isPhys
  | .ok stmt =>
    let derived := derivedMapOf stmt dc ds s2f
    (stmtTablesOf stmt).flatMap (scanCreditOfTable dc ds s2f derived)

/-! ## Per-SELECT processing -/

structure GroupPat where
  gQueryid : String
  gRunquantity : Int
  columnsRaw : List String
  columnsOnly : List String

/-- The mutable aggregation state of `build_context_pack` step 2. -/
structure Acc where
  tsf : CMap
  tsqf : CMap
  cu : CMap
  jew : PMap
  jkf : CMap
  gbp : List GroupPat
  wf : CMap

/-- The aliases visible in one SELECT (`sel_alias_map_phys`, built
identically at lines 496–511 and 717–732 of the source). -/
def selAliasMapPhys (sel : QExpr) (aliasP : LMap) : LMap :=
  let fromTabs := match selFrom sel with
    | some f => tablesOf f
    | none => []
  let joinTabs := (selJoins sel).flatMap tablesOf
  (fromTabs ++ joinTabs).foldl (fun m t =>
    match aliasNameOfOpt t.tAl with
    | some a =>
      let bases := (lookupL aliasP a).getD []
      if bases ≠ [] then lset m a bases else m
    | none => m) []

/-- `_col_phys_bases`. -/
def colPhysBases (cq : String × Option String) (selAliasMap : LMap)
    (selBasesPhys : List String) (s2f : SMap) : List String :=
  match cq.2 with
  | some qs =>
    if qs ≠ "" then
      let name := normId qs
      match lookupL selAliasMap name with
      | some bs => bs
      | none => match lookupS s2f name with
        | some fq => [fq]
        | none => []
    else if selBasesPhys.length = 1 then selBasesPhys else []
  | none => if selBasesPhys.length = 1 then selBasesPhys else []

/-- `_join_key_pairs_for_select`. -/
def joinKeyPairsForSelect (dc ds : Option String) (s2f : SMap) (aliasP cteP : LMap)
    (sel : QExpr) : List (String × String × String × String) :=
  let selBasesRaw := basesOfAny dc ds sel
  let selBasesPhys := expandToPhysical selBasesRaw aliasP cteP s2f
  let selAliasMap := selAliasMapPhys sel aliasP
  let pairsFrom := fun (e : QExpr) =>
    (walkEqPairs e).flatMap fun pr =>
      let lb := colPhysBases pr.1 selAliasMap selBasesPhys s2f
      let rb := colPhysBases pr.2 selAliasMap selBasesPhys s2f
      if lb.isEmpty || rb.isEmpty then []
      else
        let lname := lowerStr (normId pr.1.1)
        let rname := lowerStr (normId pr.2.1)
        lb.flatMap fun a => rb.flatMap fun b =>
          if isPhys a && isPhys b && (a != b) then
            let ab := pySortPair a b
            if ab.1 = a then [(ab.1, ab.2, lname, rname)]
            else [(ab.1, ab.2, rname, lname)]
          else []
  let onPairs := (selJoins sel).flatMap fun j =>
    match j with
    | .joinE _ (some onE) => pairsFrom onE
    | _ => []
  let wherePairs := match selWhere sel with
    | some wE => pairsFrom wE
    | none => []
  onPairs ++ wherePairs

/-- Model of `e.sql(dialect="trino")` for the group-by capture: the
rendered text is stored opaquely and never re-inspected by the analyzer,
so only column references render structurally. -/
def sqlOf : QExpr → String
  | .col n (some q) => if q ≠ "" then q ++ "." ++ n else n
  | .col n none => n
  | .lit s => s
  | _ => "<expr>"

/-- Add an element to a set-valued entry (`defaultdict(set).add`). -/
def addToSetL (m : LMap) (k x : String) : LMap :=
  match lookupL m k with
  | some xs => if x ∈ xs then m else lset m k (xs ++ [x])
  | none => lset m k [x]

/-- Pass 1 of the column attribution (lines 745–757 of the source): a
qualified column is resolved through the select's alias map, falling
back to the short-name index, and credited at each physical base. -/
def cuPass1Step (s2f : SMap) (selAliasMap : LMap) (w : Int)
    (p : CMap × LMap) (c : String × Option String) : CMap × LMap :=
  let cn := normId c.1
  if cn = "" then p
  else match c.2 with
    | some qs =>
      if qs ≠ "" then
        let qn := normId qs
        let bases0 := (lookupL selAliasMap qn).getD []
        let bases := if bases0 ≠ [] then bases0
          else match lookupS s2f qn with
            | some sb => if sb ≠ "" then [sb] else []
            | none => []
        bases.foldl (fun (p2 : CMap × LMap) fq =>
          if isPhys fq then
            (cadd p2.1 (fq ++ "." ++ cn) w, addToSetL p2.2 cn fq)
          else p2) p
      else p
    | none => p

/-- Pass 2 of the column attribution (lines 759–779 of the source): an
unqualified column goes to the select's single base, the single pass-1
preference, each single-alias base, or the reserved bucket. -/
def cuPass2Step (w : Int) (selBasesPhys : List String) (colPref : LMap)
    (singleAliasBases : Option (List String)) (m : CMap)
    (c : String × Option String) : CMap :=
  let qualified : Bool := match c.2 with
    | some qs => qs != ""
    | none => false
  if qualified then m
  else
    let cn := normId c.1
    if cn = "" then m
    else match selBasesPhys with
      | [only] => cadd m (only ++ "." ++ cn) w
      | _ =>
        match (lookupL colPref cn).getD [] with
        | [onlyB] => cadd m (onlyB ++ "." ++ cn) w
        | _ =>
          match singleAliasBases with
          | some bs =>
            if bs ≠ [] then bs.foldl (fun m2 fq => cadd m2 (fq ++ "." ++ cn) w) m
            else cadd m ("__unknown__." ++ cn) w
          | none => cadd m ("__unknown__." ++ cn) w

/-- The per-SELECT part of `build_context_pack` step 2: column
attribution (two passes), group-by capture, and join-key extraction. -/
def processSelect (dc ds : Option String) (s2f : SMap) (aliasP cteP : LMap)
    (q : QueryStat) (acc : Acc) (sel : QExpr) : Acc :=
  let w := q.runquantity
  let selBasesRaw := basesOfAny dc ds sel
  let selBasesPhys := expandToPhysical selBasesRaw aliasP cteP s2f
  let selAliasMap := selAliasMapPhys sel aliasP
  let singleAliasBases : Option (List String) :=
    match selAliasMap with
    | [p] => some p.2
    | _ => none
  let cols := columnsOfSel sel
  let p1 := cols.foldl (cuPass1Step s2f selAliasMap w) (acc.cu, [])
  let colPref := p1.2
  let cu2 := cols.foldl (cuPass2Step w selBasesPhys colPref singleAliasBases) p1.1
  let gbs := groupExprsOf sel
  let gbRaw := gbs.flatMap (fun es => es.map sqlOf)
  let gbCols := gbs.flatMap (fun es => es.filterMap fun e =>
      match e with
      | .col n _ => (let nm := normId n; if nm ≠ "" then some nm else none)
      | _ => none)
  let gbp' := if gbRaw ≠ [] then acc.gbp ++ [⟨q.queryid, w, gbRaw, gbCols⟩] else acc.gbp
  let pairs := joinKeyPairsForSelect dc ds s2f aliasP cteP sel
  let jj := pairs.foldl (fun (p : PMap × CMap) pr =>
      let a := pr.1
      let b := pr.2.1
      let ca := pr.2.2.1
      let cb := pr.2.2.2
      if isPhys a && isPhys b && (a != b) then
        let ab := pySortPair a b
        (padd p.1 ab w, cadd p.2 (ab.1 ++ "|" ++ ab.2 ++ "|" ++ ca ++ "|" ++ cb) w)
      else p) (acc.jew, acc.jkf)
  { acc with cu := cu2, gbp := gbp', jew := jj.1, jkf := jj.2 }

/-- One iteration of the `for q in q_list` loop of `build_context_pack`:
scan credits (shared with the parse-failure fallback through
`creditsOf`), then per-SELECT aggregation, then window functions. -/
def processQuery (parse : String → Except Unit QStmt) (dc ds : Option String)
    (s2f : SMap) (acc : Acc) (q : QueryStat) : Acc :=
  let credits := creditsOf parse dc ds s2f q
  let tsf1 := credits.foldl (fun m k => cadd m k q.runquantity) acc.tsf
  let tsqf1 := (firstDedup credits).foldl (fun m k => cadd m k q.runquantity) acc.tsqf
  let acc1 := { acc with tsf := tsf1, tsqf := tsqf1 }
  match parse q.query with
  | .error _ => acc1
  | .ok stmt =>
    let maps := resolveAliasMapsStmt stmt dc ds
    let cteP := maps.1.map fun (p : String × List String) =>
      (p.1, expandToPhysical p.2 maps.2 maps.1 s2f)
    let aliasP := maps.2.map fun (p : String × List String) =>
      (p.1, expandToPhysical p.2 maps.2 maps.1 s2f)
    let acc2 := (stmtSelectsOf stmt).foldl (processSelect dc ds s2f aliasP cteP q) acc1
    let wf1 := (stmtWinNamesOf stmt).foldl (fun m fn =>
        let nm := upperStr fn
        if nm ≠ "" then cadd m nm q.runquantity else m) acc2.wf
    { acc2 with wf := wf1 }

end SqlStatic

namespace SqlStatic

/-! ## Assembly: graph, cliques, hot columns, top queries, output -/

/-- Ascending Python `sorted` key for `((a, b), w)` tuples (full tuple
lexicographic comparison). -/
def edgeLexLe (p q' : (String × String) × Int) : Bool :=
  if p.1.1 ≠ q'.1.1 then strLtB p.1.1 q'.1.1
  else if p.1.2 ≠ q'.1.2 then strLtB p.1.2 q'.1.2
  else p.2 ≤ q'.2

def isCliqueIn (adj : String → String → Bool) : List String → Bool
  | [] => true
  | x :: xs => xs.all (adj x) && isCliqueIn adj xs

/-- Modelled from the spec: the external maximal-clique enumeration
(`networkx.find_cliques`, the out-of-scope "general-purpose graph
utility" of spec §1): every maximal clique of the induced subgraph, in a
deterministic order. -/
def maxCliques (nodes : List String) (adj : String → String → Bool) :
    List (List String) :=
  nodes.sublists.filter fun c =>
    (!c.isEmpty) && isCliqueIn adj c &&
      nodes.all fun y => c.contains y || !(c.all (adj y))

def hasEdgeIn (edges : PMap) (x y : String) : Bool :=
  edges.any fun p => (p.1.1 == x && p.1.2 == y) || (p.1.1 == y && p.1.2 == x)

/-- `"." in key` / `key.rsplit(".", 1)`. -/
def hasDotB (s : String) : Bool := s.data.contains '.'

def rsplitDot (k : String) : String × String :=
  let parts := pySplitDots k
  (dotJoin parts.dropLast, parts.getLastD "")

/-- The output `ContextPack` (the `queries_overview` dict is carried as
its two fields `total_queries` / `total_runquantity`; the final
`json.loads(json.dumps(asdict(…)))` round-trip of the source is the
identity on this data). -/
structure ContextPack where
  default_catalog : Option String
  default_schema : Option String
  ddl_tables : List DdlTable
  total_queries : Nat
  total_runquantity : Int
  join_graph_edges : List (String × String × Int)
  join_key_freq : CMap
  table_scan_freq : CMap
  table_scan_query_freq : CMap
  column_usage_freq : CMap
  groupby_patterns : List GroupPat
  window_functions : CMap
  top_queries_by_q : List (String × Int)
  hot_join_cliques : List (List String)
  hot_columns_per_table : List (String × List String)

/-- `build_context_pack(ddl, queries)`, parameterized by the external
parser.  The only uncaught exception site is the default-schema
extraction; everything after it is total. -/
def buildContextPack (parse : String → Except Unit QStmt)
    (ddlRaw : List RawDDL) (qRaw : List RawQuery) : Except Unit ContextPack :=
  let ddls := toDDLList ddlRaw
  let qList := toQueryStatList qRaw
  match extractDefault parse ddls with
  | .error e => .error e
  | .ok dcds =>
    let dc := dcds.1
    let ds := dcds.2
    let s2f := shortIndexOf parse ddls qList dc ds
    let ddlTabs := ddlTablesOf parse ddls dc ds
    let acc := qList.foldl (processQuery parse dc ds s2f) ⟨[], [], [], [], [], [], []⟩
    let physEdges := acc.jew.filter fun p => isPhys p.1.1 && isPhys p.1.2
    let hotEdges :=
      ((stableSortBy (fun u v => v.2 ≤ u.2) (stableSortBy edgeLexLe physEdges)).take 5)
    let hotNodes := firstDedup (hotEdges.flatMap fun p => [p.1.1, p.1.2])
    let cliques0 := maxCliques hotNodes (hasEdgeIn physEdges)
    let cliques := (stableSortBy (fun u v => v.length ≤ u.length) cliques0).take 3
    let byTable := acc.cu.foldl (fun m p =>
        if hasDotB p.1 then
          let tc := rsplitDot p.1
          if tc.1 = "__unknown__" || !isPhys tc.1 then m
          else nadd m tc.1 tc.2 p.2
        else m) []
    let hotCols := byTable.map fun (p : String × CMap) =>
        (p.1, ((stableSortBy (fun u v => v.2 ≤ u.2) p.2).take 10).map Prod.fst)
    let topQ := ((stableSortBy (fun u v => v.runquantity ≤ u.runquantity) qList).take 10).map
        fun q => (q.queryid, q.runquantity)
    let tsfPhys := acc.tsf.foldl (fun m p =>
        if isPhys p.1 then cadd m p.1 p.2
        else match lookupS s2f p.1 with
          | some mapped => if isPhys mapped then cadd m mapped p.2 else m
          | none => m) []
    let tsqfPhys := acc.tsqf.filter fun p => isPhys p.1
    .ok {
      default_catalog := dc
      default_schema := ds
      ddl_tables := ddlTabs
      total_queries := qList.length
      total_runquantity := (qList.map QueryStat.runquantity).sum
      join_graph_edges := physEdges.map fun p => (p.1.1, p.1.2, p.2)
      join_key_freq := acc.jkf
      table_scan_freq := tsfPhys
      table_scan_query_freq := tsqfPhys
      column_usage_freq := acc.cu
      groupby_patterns := acc.gbp
      window_functions := acc.wf
      top_queries_by_q := topQ
      hot_join_cliques := cliques
      hot_columns_per_table := hotCols
    }

end SqlStatic

namespace SqlStatic

/-! ## The concrete parser instance for the verified scenarios

`parseTrino` is the external parser (sqlglot, `read="trino"`) restricted
to the SQL texts appearing in the spec's scenarios and counterexamples:
each text is mapped to the syntax tree sqlglot produces for it (`Schema`
targets for column-bearing CREATEs, `Table`/`Column`/`Join`/`CTE` nodes
with sqlglot's `this`/`db`/`catalog` fields).  Any other text fails to
parse. -/

def astCreateSingleSeg : QStmt := .createT (.schemaT ⟨"t", none, none, none⟩ "x INT")

def astCreateHClient : QStmt :=
  .createT (.schemaT ⟨"h_client", some "public", some "quests", none⟩ "id INT")

def astCreateT1 : QStmt := .createT (.schemaT ⟨"t1", some "sch", some "cat", none⟩ "id INT")

def astCreateT2 : QStmt :=
  .createT (.schemaT ⟨"t2", some "sch", some "cat", none⟩ "id INT, t1_id INT")

def astSelectHClient : QStmt :=
  .qe (.selectE [] [.col "id" none]
    (some (.tbl "h_client" (some "public") (some "quests") none)) [] none [])

def astJoinT1T2 : QStmt :=
  .qe (.selectE [] [.col "id" (some "a")]
    (some (.tbl "t1" none none (some "a")))
    [.joinE (.tbl "t2" none none (some "b"))
      (some (.eqE (.col "id" (some "a")) (.col "t1_id" (some "b"))))]
    none [])

def astCteX : QStmt :=
  .qe (.selectE
    [.cteE "x" (.selectE [] [.col "id" none]
      (some (.tbl "t1" (some "sch") (some "cat") none)) [] none [])]
    [.star] (some (.tbl "x" none none none)) [] none [])

def astWeirdSchema : QStmt :=
  .qe (.selectE [] [.lit "1"] (some (.tbl "t" (some "we irdsch") none none)) [] none [])

def astBareT : QStmt :=
  .qe (.selectE [] [.col "x" none] (some (.tbl "t" none none none)) [] none [])

def astSelfJoin : QStmt :=
  .qe (.selectE [] [.lit "1"] (some (.tbl "t" (some "s") none none))
    [.joinE (.tbl "t" (some "s") none none) (some (.eqE (.lit "1") (.lit "1")))] none [])

def astSelectOne : QStmt := .qe (.selectE [] [.lit "1"] none [] none [])

def parseTrino (s : String) : Except Unit QStmt :=
  if s = "CREATE TABLE t (x INT)" then .ok astCreateSingleSeg
  else if s = "CREATE TABLE quests.public.h_client (id INT)" then .ok astCreateHClient
  else if s = "CREATE TABLE cat.sch.t1 (id INT)" then .ok astCreateT1
  else if s = "CREATE TABLE cat.sch.t2 (id INT, t1_id INT)" then .ok astCreateT2
  else if s = "SELECT id FROM quests.public.h_client" then .ok astSelectHClient
  else if s = "SELECT a.id FROM t1 a JOIN t2 b ON a.id = b.t1_id" then .ok astJoinT1T2
  else if s = "WITH x AS (SELECT id FROM cat.sch.t1) SELECT * FROM x" then .ok astCteX
  else if s = "SELECT 1 FROM \"we irdsch\".t" then .ok astWeirdSchema
  else if s = "SELECT x FROM t" then .ok astBareT
  else if s = "SELECT 1 FROM s.t JOIN s.t ON 1 = 1" then .ok astSelfJoin
  else if s = "SELECT 1" then .ok astSelectOne
  else .error ()

/-! ### Concrete inputs for the scenario claims -/

def rawDDL (s : String) : RawDDL := ⟨some (.pstr s), none, none⟩

def rawQuery (qid sql : String) (w : Int) : RawQuery :=
  ⟨some (.pstr qid), none, none, none, some (.pstr sql), some (.pint w), none, none⟩

/-- C1 failing input: a degenerate single-segment CREATE TABLE. -/
def ddlC1 : List RawDDL := [rawDDL "CREATE TABLE t (x INT)"]

/-- Scenario A input. -/
def ddlA : List RawDDL := [rawDDL "CREATE TABLE quests.public.h_client (id INT)"]

def qsA : List RawQuery := [rawQuery "qa" "SELECT id FROM quests.public.h_client" 5]

/-- Scenario B input. -/
def ddlB : List RawDDL :=
  [rawDDL "CREATE TABLE cat.sch.t1 (id INT)", rawDDL "CREATE TABLE cat.sch.t2 (id INT, t1_id INT)"]

def qsB : List RawQuery := [rawQuery "qb" "SELECT a.id FROM t1 a JOIN t2 b ON a.id = b.t1_id" 3]

/-- Scenario D input (the CTE scenario). -/
def qsD : List RawQuery := [rawQuery "qd" "WITH x AS (SELECT id FROM cat.sch.t1) SELECT * FROM x" 1]

/-- C2 counterexample input: a non-word schema name feeding the
short-name index, and a negative run weight. -/
def qsC2 : List RawQuery :=
  [rawQuery "q1" "SELECT 1 FROM \"we irdsch\".t" 1, rawQuery "q2" "SELECT x FROM t" (-5)]

/-- C5 counterexample input: a negative-weight query referencing the same
table twice. -/
def qsC5 : List RawQuery := [rawQuery "q1" "SELECT 1 FROM s.t JOIN s.t ON 1 = 1" (-5)]

/-- C7 witness input: unparseable SQL containing `FROM cat.sch.orphan`. -/
def qsC7 : List RawQuery := [rawQuery "q7" "SELEC 1 FRO ? FROM cat.sch.orphan WHERE" 2]

/-- C10 witness input: run-weight field present but zero. -/
def qC10 : RawQuery :=
  ⟨some (.pstr "q10"), none, none, none, some (.pstr "SELECT 1"), some (.pint 0), none, none⟩

end SqlStatic

namespace SqlStatic

/-! ## Concrete scenario theorems -/

/-- C1: the spec requires `build_context_pack` never to raise, but on the
degenerate single-segment DDL `CREATE TABLE t (x INT)` the tuple
unpacking `catalog, schema = str(create.this).split('.')[:2]` in
`_extract_default_catalog_schema_from_ddl` receives a single-element list
(`str(create.this) = "t (x INT)"` has no dot) and raises `ValueError`:
the analyzer aborts instead of degrading. -/
theorem C1_single_segment_create_raises :
    buildContextPack parseTrino ddlC1 [] = .error () := by rfl

/-- C3 (Scenario A): with DDL `CREATE TABLE quests.public.h_client (id
INT)` and the single query `SELECT id FROM quests.public.h_client` of
weight 5, the analyzer reports default catalog `quests`, default schema
`public`, a scan weight of 5 for the table and a usage weight of 5 for
its `id` column. -/
theorem C3_scenario_a :
    (buildContextPack parseTrino ddlA qsA).toOption.map (fun p =>
      (p.default_catalog, p.default_schema,
        cget p.table_scan_freq "quests.public.h_client",
        cget p.column_usage_freq "quests.public.h_client.id"))
      = some (some "quests", some "public", 5, 5) := by decide

/-- C4 (Scenario B): the query `SELECT a.id FROM t1 a JOIN t2 b ON a.id =
b.t1_id` of weight 3, with the short names resolved through the DDL
defaults, yields exactly the join edge `("cat.sch.t1","cat.sch.t2")` of
weight 3 and `join_key_freq["cat.sch.t1|cat.sch.t2|id|t1_id"] = 3`. -/
theorem C4_scenario_b :
    (buildContextPack parseTrino ddlB qsB).toOption.map (fun p =>
      (p.join_graph_edges, cget p.join_key_freq "cat.sch.t1|cat.sch.t2|id|t1_id"))
      = some ([("cat.sch.t1", "cat.sch.t2", 3)], 3) := by decide

/-- C8 (Scenario D): for `WITH x AS (SELECT id FROM cat.sch.t1) SELECT *
FROM x` the outer reference to the CTE `x` resolves through the scope
maps: both scan-frequency maps contain only the physical key
`cat.sch.t1` (weight 2 = inner + outer reference, once per query for the
per-query map) and no literal key `"x"`. -/
theorem C8_cte_resolution :
    (buildContextPack parseTrino [] qsD).toOption.map (fun p =>
      (p.table_scan_freq, p.table_scan_query_freq))
      = some ([("cat.sch.t1", 2)], [("cat.sch.t1", 1)]) := by decide

/-- C2 counterexample: with the queries `SELECT 1 FROM "we irdsch".t`
(weight 1) and `SELECT x FROM t` (weight −5) and no DDL, the produced
pack has `column_usage_freq = {"we irdsch.t.x": -5}` — a negative
counter whose key prefix `"we irdsch.t"` is neither a physical name nor
the reserved `"__unknown__"` bucket (the short-name index maps the bare
`t` to the non-physical `"we irdsch.t"`, and `_expand_to_physical`'s
short-name branch performs no physicality check). -/
theorem C2_counterexample :
    (buildContextPack parseTrino [] qsC2).toOption.map (fun p => p.column_usage_freq)
        = some [("we irdsch.t.x", -5)] ∧
      "we irdsch.t.x" = "we irdsch.t" ++ "." ++ "x" ∧
      isPhys "we irdsch.t" = false ∧
      "we irdsch.t" ≠ "__unknown__" ∧
      ((-5 : Int) < 0) := by
  refine ⟨by decide, by decide, by decide, by decide, by decide⟩

/-- C5 counterexample: the single query `SELECT 1 FROM s.t JOIN s.t ON 1
= 1` with run weight −5 references `s.t` twice, so
`table_scan_freq["s.t"] = -10` while `table_scan_query_freq["s.t"] =
-5`, and the claimed inequality `query_freq ≤ scan_freq` fails. -/
theorem C5_counterexample :
    (buildContextPack parseTrino [] qsC5).toOption.map (fun p =>
      (cget p.table_scan_query_freq "s.t", cget p.table_scan_freq "s.t"))
      = some (-5, -10) ∧
    ¬ ((-5 : Int) ≤ -10) := by
  refine ⟨by decide, by decide⟩

end SqlStatic

namespace SqlStatic

/-! ## Basic lemmas about the map operations -/

theorem foldl_inv {α β : Type} (P : β → Prop) (f : β → α → β) (l : List α) (b : β)
    (hb : P b) (hf : ∀ b a, a ∈ l → P b → P (f b a)) : P (l.foldl f b) := by
  induction l generalizing b with
  | nil => exact hb
  | cons x xs ih =>
    exact ih (f b x) (hf b x (by simp) hb) (fun b' a ha hb' => hf b' a (by simp [ha]) hb')

theorem mem_cadd {m : CMap} {k : String} {v : Int} {p : String × Int}
    (h : p ∈ cadd m k v) : p.1 = k ∨ p ∈ m := by
  induction m with
  | nil =>
    simp only [cadd, List.mem_singleton] at h
    subst h; left; rfl
  | cons q rest ih =>
    obtain ⟨k', v'⟩ := q
    simp only [cadd] at h
    split at h
    next hk =>
      rcases List.mem_cons.mp h with rfl | h
      · left; exact hk
      · right; exact List.mem_cons_of_mem _ h
    next hk =>
      rcases List.mem_cons.mp h with rfl | h
      · right; exact List.mem_cons_self _ _
      · rcases ih h with h1 | h1
        · left; exact h1
        · right; exact List.mem_cons_of_mem _ h1

theorem cadd_nonneg {m : CMap} {k : String} {v : Int}
    (hm : ∀ p ∈ m, 0 ≤ p.2) (hv : 0 ≤ v) : ∀ p ∈ cadd m k v, 0 ≤ p.2 := by
  induction m with
  | nil =>
    intro p hp
    simp only [cadd, List.mem_singleton] at hp
    subst hp; exact hv
  | cons q rest ih =>
    obtain ⟨k', v'⟩ := q
    intro p hp
    simp only [cadd] at hp
    split at hp
    next hk =>
      rcases List.mem_cons.mp hp with rfl | hp
      · have := hm (k', v') (List.mem_cons_self _ _)
        simp only at this ⊢
        omega
      · exact hm p (List.mem_cons_of_mem _ hp)
    next hk =>
      rcases List.mem_cons.mp hp with rfl | hp
      · exact hm _ (List.mem_cons_self _ _)
      · exact ih (fun r hr => hm r (List.mem_cons_of_mem _ hr)) p hp

theorem mem_padd {m : PMap} {k : String × String} {v : Int} {p : (String × String) × Int}
    (h : p ∈ padd m k v) : p.1 = k ∨ p ∈ m := by
  induction m with
  | nil =>
    simp only [padd, List.mem_singleton] at h
    subst h; left; rfl
  | cons q rest ih =>
    obtain ⟨k', v'⟩ := q
    simp only [padd] at h
    split at h
    next hk =>
      rcases List.mem_cons.mp h with rfl | h
      · left; exact hk
      · right; exact List.mem_cons_of_mem _ h
    next hk =>
      rcases List.mem_cons.mp h with rfl | h
      · right; exact List.mem_cons_self _ _
      · rcases ih h with h1 | h1
        · left; exact h1
        · right; exact List.mem_cons_of_mem _ h1

theorem padd_nonneg {m : PMap} {k : String × String} {v : Int}
    (hm : ∀ p ∈ m, 0 ≤ p.2) (hv : 0 ≤ v) : ∀ p ∈ padd m k v, 0 ≤ p.2 := by
  induction m with
  | nil =>
    intro p hp
    simp only [padd, List.mem_singleton] at hp
    subst hp; exact hv
  | cons q rest ih =>
    obtain ⟨k', v'⟩ := q
    intro p hp
    simp only [padd] at hp
    split at hp
    next hk =>
      rcases List.mem_cons.mp hp with rfl | hp
      · have := hm (k', v') (List.mem_cons_self _ _)
        simp only at this ⊢
        omega
      · exact hm p (List.mem_cons_of_mem _ hp)
    next hk =>
      rcases List.mem_cons.mp hp with rfl | hp
      · exact hm _ (List.mem_cons_self _ _)
      · exact ih (fun r hr => hm r (List.mem_cons_of_mem _ hr)) p hp

theorem mem_nadd {m : NMap} {k k2 : String} {v : Int} {p : String × CMap}
    (h : p ∈ nadd m k k2 v) : p.1 = k ∨ p ∈ m := by
  induction m with
  | nil =>
    simp only [nadd, List.mem_singleton] at h
    subst h; left; rfl
  | cons q rest ih =>
    obtain ⟨k', cm⟩ := q
    simp only [nadd] at h
    split at h
    next hk =>
      rcases List.mem_cons.mp h with rfl | h
      · left; exact hk
      · right; exact List.mem_cons_of_mem _ h
    next hk =>
      rcases List.mem_cons.mp h with rfl | h
      · right; exact List.mem_cons_self _ _
      · rcases ih h with h1 | h1
        · left; exact h1
        · right; exact List.mem_cons_of_mem _ h1

theorem lookupS_mem {m : SMap} {k v : String} (h : lookupS m k = some v) : (k, v) ∈ m := by
  induction m with
  | nil => simp [lookupS] at h
  | cons q rest ih =>
    obtain ⟨k', v'⟩ := q
    simp only [lookupS] at h
    split at h
    next hk =>
      injection h with h
      subst hk; subst h
      exact List.mem_cons_self _ _
    next hk =>
      exact List.mem_cons_of_mem _ (ih h)

theorem lookupL_mem {m : LMap} {k : String} {v : List String}
    (h : lookupL m k = some v) : (k, v) ∈ m := by
  induction m with
  | nil => simp [lookupL] at h
  | cons q rest ih =>
    obtain ⟨k', v'⟩ := q
    simp only [lookupL] at h
    split at h
    next hk =>
      injection h with h
      subst hk; subst h
      exact List.mem_cons_self _ _
    next hk =>
      exact List.mem_cons_of_mem _ (ih h)

theorem mem_of_mem_firstDedup_go (seen : List String) (l : List String) (x : String)
    (h : x ∈ firstDedup.go seen l) : x ∈ l := by
  induction l generalizing seen with
  | nil => simp [firstDedup.go] at h
  | cons y ys ih =>
    simp only [firstDedup.go] at h
    by_cases hy : y ∈ seen
    · simp only [if_pos hy] at h
      exact List.mem_cons_of_mem _ (ih _ h)
    · simp only [if_neg hy] at h
      rcases List.mem_cons.mp h with rfl | h
      · exact List.mem_cons_self _ _
      · exact List.mem_cons_of_mem _ (ih _ h)

theorem mem_of_mem_firstDedup {l : List String} {x : String}
    (h : x ∈ firstDedup l) : x ∈ l :=
  mem_of_mem_firstDedup_go [] l x h

end SqlStatic

namespace SqlStatic

/-! ## C9, C7, C10 -/

theorem stableInsert_head {α : Type} (pyLe : α → α → Bool) (x : α) :
    ∀ ys : List α, (stableInsert pyLe x ys).head? = some x ∨
      (stableInsert pyLe x ys).head? = ys.head?
  | [] => Or.inl rfl
  | z :: zs => by
    simp only [stableInsert]
    by_cases h : pyLe z x = true
    · rw [if_pos h]; exact Or.inr rfl
    · rw [if_neg h]; exact Or.inl rfl

theorem chain_stableInsert {α : Type} {pyLe : α → α → Bool}
    (htot : ∀ a b, pyLe a b = true ∨ pyLe b a = true) (x : α) :
    ∀ l : List α, List.Chain' (fun a b => pyLe a b = true) l →
      List.Chain' (fun a b => pyLe a b = true) (stableInsert pyLe x l)
  | [], _ => by simp [stableInsert]
  | y :: ys, h => by
    simp only [stableInsert]
    have hhd := (List.chain'_cons'.mp h).1
    have htl := (List.chain'_cons'.mp h).2
    by_cases hyx : pyLe y x = true
    · rw [if_pos hyx]
      refine List.chain'_cons'.mpr ⟨?_, chain_stableInsert htot x ys htl⟩
      intro b hb
      rcases stableInsert_head pyLe x ys with hh | hh
      · rw [hh] at hb
        have hbx : x = b := by simpa using hb
        rw [← hbx]
        exact hyx
      · rw [hh] at hb
        exact hhd b hb
    · rw [if_neg hyx]
      refine List.chain'_cons'.mpr ⟨?_, h⟩
      intro b hb
      have hby : y = b := by simpa using hb
      rw [← hby]
      rcases htot y x with h1 | h1
      · exact absurd h1 hyx
      · exact h1

theorem chain_stableSortBy {α : Type} {pyLe : α → α → Bool}
    (htot : ∀ a b, pyLe a b = true ∨ pyLe b a = true) (l : List α) :
    List.Chain' (fun a b => pyLe a b = true) (stableSortBy pyLe l) := by
  unfold stableSortBy
  refine foldl_inv (fun acc : List α =>
    List.Chain' (fun a b => pyLe a b = true) acc) _ _ _ ?_ ?_
  · exact List.chain'_nil
  · intro acc x hx hacc
    exact chain_stableInsert htot x acc hacc

theorem chain_take_sortByW (l : List QueryStat) (n : Nat) :
    List.Chain' (fun a b : QueryStat => b.runquantity ≤ a.runquantity)
      ((stableSortBy (fun u v => v.runquantity ≤ u.runquantity) l).take n) := by
  have hchain := @chain_stableSortBy QueryStat
    (fun u v : QueryStat => decide (v.runquantity ≤ u.runquantity))
    (fun a b => by
      rcases Int.le_total b.runquantity a.runquantity with h | h
      · exact Or.inl (decide_eq_true h)
      · exact Or.inr (decide_eq_true h))
    l
  exact List.Chain'.imp (fun a b hab => of_decide_eq_true hab) (hchain.take n)

theorem chain_take_sortByLen (l : List (List String)) (n : Nat) :
    List.Chain' (fun u v : List String => v.length ≤ u.length)
      ((stableSortBy (fun u v => v.length ≤ u.length) l).take n) := by
  have hchain := @chain_stableSortBy (List String)
    (fun u v : List String => decide (v.length ≤ u.length))
    (fun a b => by
      rcases Nat.le_total b.length a.length with h | h
      · exact Or.inl (decide_eq_true h)
      · exact Or.inr (decide_eq_true h))
    l
  exact List.Chain'.imp (fun a b hab => of_decide_eq_true hab) (hchain.take n)

/-- C9: `build_context_pack` is modelled as a pure function of its two
inputs (and of the external parser), so identical inputs give identical
outputs; and the top-N selections are emitted in their specified
deterministic orders — `top_queries_by_q` by non-increasing run weight
and `hot_join_cliques` by non-increasing clique size.  All Python-side
tie-breaks (insertion-ordered dicts, stable sorts, the deterministic
clique enumeration) are modelled by the deterministic functions this
definition is built from. -/
theorem C9_deterministic (parse : String → Except Unit QStmt)
    (ddl : List RawDDL) (qs : List RawQuery) :
    buildContextPack parse ddl qs = buildContextPack parse ddl qs ∧
      ∀ p, buildContextPack parse ddl qs = Except.ok p →
        List.Chain' (fun u v : String × Int => v.2 ≤ u.2) p.top_queries_by_q ∧
          List.Chain' (fun u v : List String => v.length ≤ u.length)
            p.hot_join_cliques := by
  refine ⟨rfl, ?_⟩
  intro p hok
  cases hE : extractDefault parse (toDDLList ddl) with
  | error e =>
    simp only [buildContextPack, hE] at hok
    exact absurd hok (by simp)
  | ok dcds =>
    simp only [buildContextPack, hE] at hok
    rw [Except.ok.injEq] at hok
    subst hok
    dsimp only
    constructor
    · rw [List.chain'_map]
      exact List.Chain'.imp (fun a b hab => hab) (chain_take_sortByW _ 10)
    · exact chain_take_sortByLen _ 3

/-- Concrete instance of `C9_deterministic` at Scenario A: the produced
top-queries list is ordered by non-increasing run weight. -/
theorem C9_witness :
    ∃ p, buildContextPack parseTrino ddlA qsA = Except.ok p ∧
      List.Chain' (fun u v : String × Int => v.2 ≤ u.2) p.top_queries_by_q := by
  cases hE : buildContextPack parseTrino ddlA qsA with
  | error e =>
    have hs : (buildContextPack parseTrino ddlA qsA).toOption.isSome = true := by decide
    rw [hE] at hs
    simp [Except.toOption] at hs
  | ok p =>
    exact ⟨p, rfl, ((C9_deterministic parseTrino ddlA qsA).2 p hE).1⟩

/-- C7: a query whose SQL fails to parse does not abort the batch: the
per-query step changes only the two scan counters, crediting exactly the
physical `FROM <name>` regex captures (weighted, and once per distinct
table for the per-query counter), and leaves column usage, join maps,
group-by patterns and window functions untouched; and every ingested
query is counted in `queries_overview` regardless of parsability. -/
theorem C7_parse_failure_scans_only (parse : String → Except Unit QStmt)
    (dc ds : Option String) (s2f : SMap) (acc : Acc) (q : QueryStat)
    (h : parse q.query = .error ()) :
    (processQuery parse dc ds s2f acc q =
      { acc with
        tsf := ((fallbackScan q.query).filter isPhys).foldl
          (fun m k => cadd m k q.runquantity) acc.tsf,
        tsqf := (firstDedup ((fallbackScan q.query).filter isPhys)).foldl
          (fun m k => cadd m k q.runquantity) acc.tsqf }) ∧
    ∀ (ddl : List RawDDL) (qraw : List RawQuery),
      (buildContextPack parse ddl qraw).toOption.map
          (fun p => (p.total_queries, p.total_runquantity)) =
        (extractDefault parse (toDDLList ddl)).toOption.map (fun _ =>
          ((toQueryStatList qraw).length,
            ((toQueryStatList qraw).map QueryStat.runquantity).sum)) := by
  constructor
  · simp only [processQuery, creditsOf, h]
  · intro ddl qraw
    cases hED : extractDefault parse (toDDLList ddl) with
    | error e => simp [buildContextPack, hED, Except.toOption]
    | ok dcds => simp [buildContextPack, hED, Except.toOption]

/-- C7 witness: the unparseable query of `qsC7` (weight 2) credits
exactly `cat.sch.orphan` in both scan maps and contributes nothing
anywhere else, and is still counted in the overview. -/
theorem C7_witness :
    (processQuery parseTrino none none [] ⟨[], [], [], [], [], [], []⟩
        ⟨"q7", "SELEC 1 FRO ? FROM cat.sch.orphan WHERE", 2⟩ =
      { (⟨[], [], [], [], [], [], []⟩ : Acc) with
        tsf := ((fallbackScan "SELEC 1 FRO ? FROM cat.sch.orphan WHERE").filter isPhys).foldl
          (fun m k => cadd m k 2) [],
        tsqf := (firstDedup ((fallbackScan "SELEC 1 FRO ? FROM cat.sch.orphan WHERE").filter
          isPhys)).foldl (fun m k => cadd m k 2) [] }) ∧
    ((buildContextPack parseTrino [] qsC7).toOption.map
        (fun p => (p.total_queries, p.total_runquantity)) =
      (extractDefault parseTrino (toDDLList [])).toOption.map (fun _ =>
        ((toQueryStatList qsC7).length,
          ((toQueryStatList qsC7).map QueryStat.runquantity).sum))) := by
  have h := C7_parse_failure_scans_only parseTrino none none [] ⟨[], [], [], [], [], [], []⟩
    ⟨"q7", "SELEC 1 FRO ? FROM cat.sch.orphan WHERE", 2⟩ rfl
  exact ⟨h.1, h.2 [] qsC7⟩

/-- C10: a query record whose run-weight field is present but falsy (the
integer 0 or the empty string) ingests with `runquantity = 1` — the
`or`-chain treats the falsy value like an absent one — and therefore
contributes weight 1, not 0, to `total_runquantity` (and through
`runquantity` to every weighted aggregate). -/
theorem C10_falsy_weight_defaults_to_one (qid v : PyVal) (txt : Option PyVal)
    (hqid : pyTruthy qid = true) (hv : pyTruthy v = false) :
    ((toQueryStatList [⟨some qid, none, none, none, txt, some v, none, none⟩]).map
        QueryStat.runquantity = [1]) ∧
    ∀ parse : String → Except Unit QStmt,
      (buildContextPack parse []
          [⟨some qid, none, none, none, txt, some v, none, none⟩]).toOption.map
          (fun p => p.total_runquantity) = some 1 := by
  constructor
  · simp [toQueryStatList, pyOrChain, hqid, hv]
  · intro parse
    simp [buildContextPack, extractDefault, toDDLList, toQueryStatList, pyOrChain,
      hqid, hv, Except.toOption]

/-- C10 witness at the concrete record `qC10` (weight field = 0). -/
theorem C10_witness :
    ((toQueryStatList [qC10]).map QueryStat.runquantity = [1]) ∧
    (buildContextPack parseTrino [] [qC10]).toOption.map
      (fun p => p.total_runquantity) = some 1 := by
  have h := C10_falsy_weight_defaults_to_one (.pstr "q10") (.pint 0)
    (some (.pstr "SELECT 1")) (by decide) (by decide)
  exact ⟨h.1, h.2 parseTrino⟩

end SqlStatic

namespace SqlStatic

/-! ## C6: canonical join edges -/

theorem strLtB_ne {a b : String} (h : strLtB a b = true) : a ≠ b := by
  intro he
  subst he
  have : cmpChars a.data a.data = Ordering.eq := (cmpChars_eq_iff _ _).mpr rfl
  simp [strLtB, strCmp, this] at h

theorem pySortPair_cases (a b : String) :
    ((pySortPair a b).1 = a ∧ (pySortPair a b).2 = b) ∨
    ((pySortPair a b).1 = b ∧ (pySortPair a b).2 = a) := by
  unfold pySortPair
  split
  · right; exact ⟨rfl, rfl⟩
  · left; exact ⟨rfl, rfl⟩

/-- The invariant of the two join aggregates: every edge key is a pair of
distinct physical names in ascending lexicographic order, and every
join-key entry decomposes as `A|B|colA|colB` with the same property. -/
def JoinInv (m : PMap) (j : CMap) : Prop :=
  (∀ p ∈ m, isPhys p.1.1 = true ∧ isPhys p.1.2 = true ∧
    strLtB p.1.1 p.1.2 = true ∧ p.1.1 ≠ p.1.2) ∧
  (∀ kv ∈ j, ∃ A B cA cB, kv.1 = A ++ "|" ++ B ++ "|" ++ cA ++ "|" ++ cB ∧
    isPhys A = true ∧ isPhys B = true ∧ strLtB A B = true ∧ A ≠ B)

theorem joinInv_pairStep (w : Int)
    (st : PMap × CMap) (pr : String × String × String × String)
    (h : JoinInv st.1 st.2) :
    JoinInv
      (if isPhys pr.1 && isPhys pr.2.1 && (pr.1 != pr.2.1) then
        (padd st.1 (pySortPair pr.1 pr.2.1) w,
          cadd st.2 ((pySortPair pr.1 pr.2.1).1 ++ "|" ++ (pySortPair pr.1 pr.2.1).2 ++ "|" ++
            pr.2.2.1 ++ "|" ++ pr.2.2.2) w)
      else st).1
      (if isPhys pr.1 && isPhys pr.2.1 && (pr.1 != pr.2.1) then
        (padd st.1 (pySortPair pr.1 pr.2.1) w,
          cadd st.2 ((pySortPair pr.1 pr.2.1).1 ++ "|" ++ (pySortPair pr.1 pr.2.1).2 ++ "|" ++
            pr.2.2.1 ++ "|" ++ pr.2.2.2) w)
      else st).2 := by
  split
  next hg =>
    obtain ⟨a, b, ca, cb⟩ := pr
    simp only [Bool.and_eq_true, bne_iff_ne] at hg
    simp only at hg ⊢
    obtain ⟨⟨hga, hgb⟩, hne⟩ := hg
    have hsorted : strLtB (pySortPair a b).1 (pySortPair a b).2 = true :=
      pySortPair_sorted a b hne
    have hphys1 : isPhys (pySortPair a b).1 = true := by
      rcases pySortPair_cases a b with ⟨h1, _⟩ | ⟨h1, _⟩ <;> rw [h1] <;> assumption
    have hphys2 : isPhys (pySortPair a b).2 = true := by
      rcases pySortPair_cases a b with ⟨_, h2⟩ | ⟨_, h2⟩ <;> rw [h2] <;> assumption
    constructor
    · intro p hp
      rcases mem_padd hp with h1 | h1
      · rw [h1]
        exact ⟨hphys1, hphys2, hsorted, strLtB_ne hsorted⟩
      · exact h.1 p h1
    · intro kv hkv
      rcases mem_cadd hkv with h1 | h1
      · exact ⟨(pySortPair a b).1, (pySortPair a b).2, ca, cb, h1,
          hphys1, hphys2, hsorted, strLtB_ne hsorted⟩
      · exact h.2 kv h1
  next => exact h

theorem joinInv_processSelect (dc ds : Option String) (s2f : SMap) (aliasP cteP : LMap)
    (q : QueryStat) (acc : Acc) (sel : QExpr)
    (h : JoinInv acc.jew acc.jkf) :
    JoinInv (processSelect dc ds s2f aliasP cteP q acc sel).jew
      (processSelect dc ds s2f aliasP cteP q acc sel).jkf := by
  unfold processSelect
  dsimp only
  refine foldl_inv (fun st : PMap × CMap => JoinInv st.1 st.2) _ _ _ ?_ ?_
  · exact h
  · exact fun st pr _ hst => joinInv_pairStep q.runquantity st pr hst

theorem joinInv_processQuery (parse : String → Except Unit QStmt)
    (dc ds : Option String) (s2f : SMap) (acc : Acc) (q : QueryStat)
    (h : JoinInv acc.jew acc.jkf) :
    JoinInv (processQuery parse dc ds s2f acc q).jew
      (processQuery parse dc ds s2f acc q).jkf := by
  unfold processQuery
  cases hp : parse q.query with
  | error e => exact h
  | ok stmt =>
    dsimp only
    refine foldl_inv (fun a : Acc => JoinInv a.jew a.jkf) _ _ _ ?_ ?_
    · exact h
    · exact fun a sel _ ha => joinInv_processSelect dc ds s2f _ _ q a sel ha

def edgesOfRes : Except Unit ContextPack → List (String × String × Int)
  | .ok p => p.join_graph_edges
  | .error _ => []

def jkfOfRes : Except Unit ContextPack → CMap
  | .ok p => p.join_key_freq
  | .error _ => []

/-- C6: in every produced pack, each join edge `(A, B, w)` has `A < B`
lexicographically (hence no self-loop), and the two table names in every
`join_key_freq` key likewise satisfy `A < B` and `A ≠ B`. -/
theorem C6_canonical_edges (parse : String → Except Unit QStmt)
    (ddl : List RawDDL) (qs : List RawQuery) :
    (∀ e ∈ edgesOfRes (buildContextPack parse ddl qs),
      strLtB e.1 e.2.1 = true ∧ e.1 ≠ e.2.1) ∧
    ∀ kv ∈ jkfOfRes (buildContextPack parse ddl qs),
      ∃ A B cA cB, kv.1 = A ++ "|" ++ B ++ "|" ++ cA ++ "|" ++ cB ∧
        strLtB A B = true ∧ A ≠ B := by
  cases hED : extractDefault parse (toDDLList ddl) with
  | error e =>
    constructor
    · intro e' he'
      simp [buildContextPack, hED, edgesOfRes] at he'
    · intro kv hkv
      simp [buildContextPack, hED, jkfOfRes] at hkv
  | ok dcds =>
    have hinv : JoinInv
        ((toQueryStatList qs).foldl
          (processQuery parse dcds.1 dcds.2
            (shortIndexOf parse (toDDLList ddl) (toQueryStatList qs) dcds.1 dcds.2))
          ⟨[], [], [], [], [], [], []⟩).jew
        ((toQueryStatList qs).foldl
          (processQuery parse dcds.1 dcds.2
            (shortIndexOf parse (toDDLList ddl) (toQueryStatList qs) dcds.1 dcds.2))
          ⟨[], [], [], [], [], [], []⟩).jkf := by
      refine foldl_inv (fun a : Acc => JoinInv a.jew a.jkf) _ _ _ ?_ ?_
      · exact ⟨fun p hp => absurd hp (List.not_mem_nil p),
          fun kv hkv => absurd hkv (List.not_mem_nil kv)⟩
      · exact fun a q _ ha => joinInv_processQuery _ _ _ _ a q ha
    constructor
    · intro e' he'
      simp only [buildContextPack, hED, edgesOfRes, List.mem_map] at he'
      obtain ⟨p, hp, rfl⟩ := he'
      have hp2 := List.mem_filter.mp hp
      have := hinv.1 p hp2.1
      exact ⟨this.2.2.1, this.2.2.2⟩
    · intro kv hkv
      simp only [buildContextPack, hED, jkfOfRes] at hkv
      obtain ⟨A, B, cA, cB, hk, _, _, hlt, hne⟩ := hinv.2 kv hkv
      exact ⟨A, B, cA, cB, hk, hlt, hne⟩

/-- C6 witness at the Scenario-B input: its single edge is canonical. -/
theorem C6_witness :
    strLtB "cat.sch.t1" "cat.sch.t2" = true ∧ "cat.sch.t1" ≠ "cat.sch.t2" := by
  have h := (C6_canonical_edges parseTrino ddlB qsB).1 ("cat.sch.t1", "cat.sch.t2", 3)
    (by decide)
  exact ⟨h.1, h.2⟩

end SqlStatic

namespace SqlStatic

/-! ## Shape lemmas for names and the short-name index -/

theorem str_data_append (a b : String) : (a ++ b).data = a.data ++ b.data := by
  cases a; cases b; rfl

theorem segsOf_append (a b : String) : segsOf (a ++ "." ++ b) = segsOf a ++ segsOf b := by
  unfold segsOf
  have h : (a ++ "." ++ b).data = a.data ++ '.' :: b.data := by
    rw [str_data_append, str_data_append]
    simp
  rw [h, splitDots_append]

theorem segsOf_len_pos (s : String) : 1 ≤ (segsOf s).length := by
  have := splitDots_ne_nil s.data
  unfold segsOf
  cases h : splitDots s.data with
  | nil => exact absurd h this
  | cons x xs => simp

/-- Every candidate full name recorded for a bare name `n` in the
short-name counter is `n` itself, `s.n`, or `c.s.n` with non-empty
prefixes. -/
def CandShape (n v : String) : Prop :=
  v = n ∨ (∃ s, s ≠ "" ∧ v = s ++ "." ++ n) ∨
    (∃ c s, c ≠ "" ∧ s ≠ "" ∧ v = c ++ "." ++ (s ++ "." ++ n))

theorem isPhys_iff (s : String) : isPhys s = true ↔
    ((segsOf s).length = 2 ∨ (segsOf s).length = 3) ∧
    ∀ p ∈ segsOf s, p ≠ [] ∧ p.all wordChar = true := by
  unfold isPhys
  simp only [Bool.and_eq_true, Bool.or_eq_true, decide_eq_true_eq, List.all_eq_true,
    Bool.not_eq_true']
  constructor
  · rintro ⟨h1, h2⟩
    refine ⟨h1, fun p hp => ⟨?_, (h2 p hp).2⟩⟩
    have hpe := (h2 p hp).1
    cases p with
    | nil => simp at hpe
    | cons c cs => simp
  · rintro ⟨h1, h2⟩
    refine ⟨h1, fun p hp => ⟨?_, (h2 p hp).2⟩⟩
    cases p with
    | nil => exact absurd rfl (h2 [] hp).1
    | cons c cs => rfl

theorem candShape_not_phys {n v : String} (hc : CandShape n v) (hn : isPhys n = false)
    (hlen : 2 ≤ (segsOf n).length) : isPhys v = false := by
  rcases hc with rfl | ⟨s, hs, rfl⟩ | ⟨c, s, hc0, hs, rfl⟩
  · exact hn
  · by_contra hv
    have hv' : isPhys (s ++ "." ++ n) = true := by
      cases h : isPhys (s ++ "." ++ n)
      · exact absurd h hv
      · rfl
    rcases (isPhys_iff _).mp hv' with ⟨h1, h2⟩
    rw [segsOf_append] at h1 h2
    have hls := segsOf_len_pos s
    have hlen3 : (segsOf s).length = 1 ∧ (segsOf n).length = 2 := by
      rcases h1 with h1 | h1 <;> simp [List.length_append] at h1 <;> omega
    have : isPhys n = true := by
      rw [isPhys_iff]
      exact ⟨Or.inl hlen3.2, fun p hp => h2 p (List.mem_append_right _ hp)⟩
    rw [this] at hn
    cases hn
  · by_contra hv
    have hv' : isPhys (c ++ "." ++ (s ++ "." ++ n)) = true := by
      cases h : isPhys (c ++ "." ++ (s ++ "." ++ n))
      · exact absurd h hv
      · rfl
    rcases (isPhys_iff _).mp hv' with ⟨h1, _⟩
    rw [segsOf_append, segsOf_append] at h1
    have hlc := segsOf_len_pos c
    have hls := segsOf_len_pos s
    rcases h1 with h1 | h1 <;> simp [List.length_append] at h1 <;> omega

theorem segsOf_append_len (a b : String) :
    2 ≤ (segsOf (a ++ "." ++ b)).length := by
  rw [segsOf_append]
  have := segsOf_len_pos a
  have := segsOf_len_pos b
  simp [List.length_append]
  omega

theorem candShape_single_seg {n v : String} (hc : CandShape n v)
    (hv : (segsOf v).length = 1) : v = n := by
  rcases hc with rfl | ⟨s, hs, rfl⟩ | ⟨c, s, hc0, hs, rfl⟩
  · rfl
  · have := segsOf_append_len s n
    omega
  · have := segsOf_append_len c (s ++ "." ++ n)
    omega

theorem pyOrOpt_ne_empty {x d : Option String} {s : String}
    (h : pyOrOpt x d = some s) : s ≠ "" := by
  unfold pyOrOpt at h
  rcases x with _ | xs
  · rcases d with _ | ds
    · simp at h
    · by_cases hd : ds ≠ "" <;> simp [hd] at h
      · rw [← h]; exact hd
  · by_cases hx : xs ≠ ""
    · simp [hx] at h; rw [← h]; exact hx
    · simp [hx] at h
      rcases d with _ | ds
      · simp at h
      · by_cases hd : ds ≠ "" <;> simp [hd] at h
        · rw [← h]; exact hd

theorem makeTabref_fields {t : TableN} {dc ds : Option String} {tr : TableRef}
    (h : makeTabref t dc ds = some tr) :
    tr.schema ≠ "" ∧ tr.table ≠ "" ∧
      (tr.catalog = none ∨ ∃ c, tr.catalog = some c ∧ c ≠ "") := by
  unfold makeTabref at h
  simp only at h
  split at h
  next s hs =>
    split at h
    next htn =>
      injection h with h
      subst h
      refine ⟨pyOrOpt_ne_empty hs, htn, ?_⟩
      rcases hc : pyOrOpt (match t.tCatalog with
        | some c => if c ≠ "" then some (normId c) else none
        | none => none) dc with _ | c
      · left; rfl
      · right; exact ⟨c, rfl, pyOrOpt_ne_empty hc⟩
    next => exact absurd h (by simp)
  next => exact absurd h (by simp)

theorem fqtnOf_shape {tr : TableRef} (hs : tr.schema ≠ "") (ht : tr.table ≠ "")
    (hc : tr.catalog = none ∨ ∃ c, tr.catalog = some c ∧ c ≠ "") :
    CandShape tr.table (fqtnOf tr) ∧ 2 ≤ (segsOf (fqtnOf tr)).length := by
  rcases hc with hc | ⟨c, hc, hcne⟩
  · have : fqtnOf tr = tr.schema ++ "." ++ tr.table := by
      simp [fqtnOf, keepTruthy, hc, hs, ht, dotJoin]
    rw [this]
    exact ⟨Or.inr (Or.inl ⟨tr.schema, hs, rfl⟩), segsOf_append_len _ _⟩
  · have : fqtnOf tr = c ++ "." ++ (tr.schema ++ "." ++ tr.table) := by
      simp [fqtnOf, keepTruthy, hc, hcne, hs, ht, dotJoin]
    rw [this]
    exact ⟨Or.inr (Or.inr ⟨c, tr.schema, hcne, hs, rfl⟩), segsOf_append_len _ _⟩

theorem dotJoin_keepTruthy_shape (c0 s0 tv : String) (htv : tv ≠ "") :
    CandShape tv (dotJoin (keepTruthy [c0, s0, tv])) := by
  by_cases hc : c0 = ""
  · by_cases hs : s0 = ""
    · have h : dotJoin (keepTruthy [c0, s0, tv]) = tv := by
        simp [keepTruthy, hc, hs, htv, dotJoin]
      rw [h]; exact Or.inl rfl
    · have h : dotJoin (keepTruthy [c0, s0, tv]) = s0 ++ "." ++ tv := by
        simp [keepTruthy, hc, hs, htv, dotJoin]
      rw [h]; exact Or.inr (Or.inl ⟨s0, hs, rfl⟩)
  · by_cases hs : s0 = ""
    · have h : dotJoin (keepTruthy [c0, s0, tv]) = c0 ++ "." ++ tv := by
        simp [keepTruthy, hc, hs, htv, dotJoin]
      rw [h]; exact Or.inr (Or.inl ⟨c0, hc, rfl⟩)
    · have h : dotJoin (keepTruthy [c0, s0, tv]) = c0 ++ "." ++ (s0 ++ "." ++ tv) := by
        simp [keepTruthy, hc, hs, htv, dotJoin]
      rw [h]; exact Or.inr (Or.inr ⟨c0, s0, hc, hs, rfl⟩)

end SqlStatic

namespace SqlStatic

theorem mostCommonKey_go_mem : ∀ (m : CMap) (bk : String) (bv : Int),
    mostCommonKey.go bk bv m = bk ∨ ∃ q ∈ m, mostCommonKey.go bk bv m = q.1 := by
  intro m
  induction m with
  | nil => intro bk bv; left; rfl
  | cons p rest ih =>
    intro bk bv
    obtain ⟨k, v⟩ := p
    simp only [mostCommonKey.go]
    split
    · rcases ih k v with h | ⟨q, hq, h⟩
      · right; exact ⟨(k, v), List.mem_cons_self _ _, h⟩
      · right; exact ⟨q, List.mem_cons_of_mem _ hq, h⟩
    · rcases ih bk bv with h | ⟨q, hq, h⟩
      · left; exact h
      · right; exact ⟨q, List.mem_cons_of_mem _ hq, h⟩

theorem mostCommonKey_mem {m : CMap} (d : String) (hm : m ≠ []) :
    ∃ q ∈ m, mostCommonKey d m = q.1 := by
  cases m with
  | nil => exact absurd rfl hm
  | cons p rest =>
    obtain ⟨k, v⟩ := p
    simp only [mostCommonKey]
    rcases mostCommonKey_go_mem rest k v with h | ⟨q, hq, h⟩
    · exact ⟨(k, v), List.mem_cons_self _ _, h⟩
    · exact ⟨q, List.mem_cons_of_mem _ hq, h⟩

theorem cadd_ne_nil (m : CMap) (k : String) (v : Int) : cadd m k v ≠ [] := by
  cases m with
  | nil => simp [cadd]
  | cons p rest =>
    obtain ⟨k', v'⟩ := p
    simp only [cadd]
    split <;> simp

/-- The short-name counter invariant: non-empty per-key counters whose
candidate names all have the `n`/`s.n`/`c.s.n` shape. -/
def SCInv (m : NMap) : Prop :=
  ∀ p ∈ m, p.2 ≠ [] ∧ ∀ q ∈ p.2, CandShape p.1 q.1

theorem scInv_nadd {m : NMap} {k k2 : String} {v : Int}
    (h : SCInv m) (hc : CandShape k k2) : SCInv (nadd m k k2 v) := by
  induction m with
  | nil =>
    intro p hp
    simp only [nadd, List.mem_singleton] at hp
    subst hp
    refine ⟨by simp [cadd], ?_⟩
    intro q hq
    simp only [cadd, List.mem_singleton] at hq
    subst hq
    exact hc
  | cons e rest ih =>
    obtain ⟨k', cm⟩ := e
    intro p hp
    simp only [nadd] at hp
    split at hp
    next hk =>
      rcases List.mem_cons.mp hp with rfl | hp
      · refine ⟨cadd_ne_nil _ _ _, ?_⟩
        intro q hq
        rcases mem_cadd hq with h1 | h1
        · rw [h1]
          simp only
          rw [hk]
          exact hc
        · exact (h _ (List.mem_cons_self _ _)).2 q h1
      · exact h p (List.mem_cons_of_mem _ hp)
    next hk =>
      rcases List.mem_cons.mp hp with rfl | hp
      · exact h _ (List.mem_cons_self _ _)
      · exact ih (fun r hr => h r (List.mem_cons_of_mem _ hr)) p hp

theorem shortCounter_shape (parse : String → Except Unit QStmt) (ddls : List DDLStmt)
    (qs : List QueryStat) (dc ds : Option String) :
    SCInv (shortCounterOf parse ddls qs dc ds) := by
  unfold shortCounterOf
  refine foldl_inv SCInv _ _ _ ?_ ?_
  · refine foldl_inv SCInv _ _ _ ?_ ?_
    · exact fun p hp => absurd hp (List.not_mem_nil p)
    · intro m d _ hm
      cases hpd : parse d.statement with
      | error e => simpa [hpd] using hm
      | ok stmt =>
        simp only [hpd]
        refine foldl_inv SCInv _ _ _ hm ?_
        intro m' ct _ hm'
        cases ct with
        | schemaT t colsSql => exact hm'
        | tblT t =>
          simp only
          cases hsq : (splitQualified (createIdents t)).2.2 with
          | none => exact hm'
          | some tv =>
            dsimp only
            by_cases htv : tv ≠ ""
            · rw [if_pos htv]
              exact scInv_nadd hm' (dotJoin_keepTruthy_shape _ _ _ htv)
            · rw [if_neg htv]
              exact hm'
  · intro m q _ hm
    cases hpq : parse q.query with
    | error e => simpa [hpq] using hm
    | ok stmt =>
      simp only [hpq]
      refine foldl_inv SCInv _ _ _ hm ?_
      intro m' t _ hm'
      cases htr : makeTabref t dc ds with
      | none => simpa [htr] using hm'
      | some tr =>
        simp only [htr]
        obtain ⟨hs, ht, hc⟩ := makeTabref_fields htr
        exact scInv_nadd hm' (fqtnOf_shape hs ht hc).1

theorem shortIndex_shape {parse : String → Except Unit QStmt} {ddls : List DDLStmt}
    {qs : List QueryStat} {dc ds : Option String} {n v : String}
    (h : (n, v) ∈ shortIndexOf parse ddls qs dc ds) : CandShape n v := by
  unfold shortIndexOf at h
  rcases List.mem_map.mp h with ⟨p, hp, heq⟩
  have hc := shortCounter_shape parse ddls qs dc ds p hp
  have h1 : p.1 = n := congrArg Prod.fst heq
  have h2 : mostCommonKey p.1 p.2 = v := congrArg Prod.snd heq
  rcases mostCommonKey_mem p.1 hc.1 with ⟨q', hq', hv⟩
  rw [← h1, ← h2, hv]
  exact hc.2 q' hq'

end SqlStatic

namespace SqlStatic

/-! ## Scan-credit keys and the impossibility of physical redirection -/

/-- Every key ever credited to `table_scan_freq` is physical, a
dot-joined full name, or a value of the short-name index. -/
def ScanKeyOk (s2f : SMap) (k : String) : Prop :=
  isPhys k = true ∨ 2 ≤ (segsOf k).length ∨ ∃ n, lookupS s2f n = some k

theorem creditsOf_scanKeyOk (parse : String → Except Unit QStmt)
    (dc ds : Option String) (s2f : SMap) (q : QueryStat) :
    ∀ k ∈ creditsOf parse dc ds s2f q, ScanKeyOk s2f k := by
  intro k hk
  unfold creditsOf at hk
  cases hp : parse q.query with
  | error e =>
    simp only [hp] at hk
    exact Or.inl (List.mem_filter.mp hk).2
  | ok stmt =>
    simp only [hp] at hk
    rcases List.mem_flatMap.mp hk with ⟨t, _, hk⟩
    unfold scanCreditOfTable at hk
    cases htr : makeTabref t dc ds with
    | some tr =>
      simp only [htr, List.mem_singleton] at hk
      subst hk
      obtain ⟨hs, ht, hc⟩ := makeTabref_fields htr
      exact Or.inr (Or.inl (fqtnOf_shape hs ht hc).2)
    | none =>
      simp only [htr] at hk
      split at hk
      · exact absurd hk (List.not_mem_nil k)
      · split at hk
        · exact Or.inl (List.mem_filter.mp hk).2
        · cases hfq : lookupS s2f (normId t.tName) with
          | some fq =>
            simp only [hfq, List.mem_singleton] at hk
            subst hk
            exact Or.inr (Or.inr ⟨normId t.tName, hfq⟩)
          | none => simp [hfq] at hk

/-- A non-physical key that could ever appear in the raw scan counter is
never mapped by the short-name index to a physical name: the index's
candidates for it all share its defect (or are the key itself). -/
theorem no_phys_redirect (parse : String → Except Unit QStmt) (ddls : List DDLStmt)
    (qs : List QueryStat) (dc ds : Option String) {k m : String}
    (hk : isPhys k = false)
    (hok : ScanKeyOk (shortIndexOf parse ddls qs dc ds) k)
    (hm : lookupS (shortIndexOf parse ddls qs dc ds) k = some m) :
    isPhys m = false := by
  have hshape : CandShape k m := shortIndex_shape (lookupS_mem hm)
  rcases Nat.lt_or_ge (segsOf k).length 2 with h2 | h2
  · have h1 : (segsOf k).length = 1 := by
      have := segsOf_len_pos k; omega
    rcases hok with h | h | ⟨n, hn⟩
    · rw [h] at hk; cases hk
    · omega
    · have hnk : CandShape n k := shortIndex_shape (lookupS_mem hn)
      have hkn : k = n := candShape_single_seg hnk h1
      have heq : some k = some m := by
        rw [← hn, ← hkn]; exact hm
      injection heq with heq
      rw [← heq]
      exact hk
  · exact candShape_not_phys hshape hk h2

/-! ## Counting lemmas for the scan maps -/

theorem cget_cadd (m : CMap) (x k : String) (w : Int) :
    cget (cadd m x w) k = cget m k + (if x = k then w else 0) := by
  induction m with
  | nil =>
    simp only [cadd, cget]
    by_cases h : x = k <;> simp [h]
  | cons p rest ih =>
    obtain ⟨k', v'⟩ := p
    simp only [cadd]
    by_cases h1 : k' = x
    · subst h1
      simp only [if_pos rfl, cget]
      by_cases h2 : k' = k <;> simp [h2]
    · rw [if_neg h1]
      simp only [cget]
      by_cases h2 : k' = k
      · have hxk : x ≠ k := fun he => h1 (h2.trans he.symm)
        simp [h2, ih, hxk]
      · simp [h2, ih]

theorem cget_foldl_cadd (l : List String) (m : CMap) (k : String) (w : Int) :
    cget (l.foldl (fun m' x => cadd m' x w) m) k = cget m k + w * (l.count k : Int) := by
  induction l generalizing m with
  | nil => simp
  | cons x xs ih =>
    simp only [List.foldl_cons, ih, cget_cadd]
    by_cases h : x = k
    · subst h
      simp [List.count_cons]
      ring
    · simp [List.count_cons, h, Ne.symm h]

theorem count_firstDedup_go_zero (seen : List String) (l : List String) (k : String)
    (hk : k ∈ seen) : (firstDedup.go seen l).count k = 0 := by
  induction l generalizing seen with
  | nil => simp [firstDedup.go]
  | cons x xs ih =>
    simp only [firstDedup.go]
    by_cases hx : x ∈ seen
    · rw [if_pos hx]
      exact ih seen hk
    · rw [if_neg hx]
      have hxk : x ≠ k := fun he => hx (he ▸ hk)
      rw [List.count_cons]
      have : (x == k) = false := by simp [hxk]
      rw [this]
      simp [ih (x :: seen) (List.mem_cons_of_mem _ hk)]

theorem count_firstDedup_go (seen : List String) (l : List String) (k : String)
    (hk : k ∉ seen) :
    (firstDedup.go seen l).count k = if k ∈ l then 1 else 0 := by
  induction l generalizing seen with
  | nil => simp [firstDedup.go]
  | cons x xs ih =>
    simp only [firstDedup.go]
    by_cases hx : x ∈ seen
    · rw [if_pos hx, ih seen hk]
      have hkx : k ≠ x := fun he => hk (he ▸ hx)
      simp [List.mem_cons, hkx]
    · rw [if_neg hx]
      by_cases hkx : k = x
      · subst hkx
        rw [List.count_cons]
        have hkk : (k == k) = true := by simp
        rw [hkk]
        rw [count_firstDedup_go_zero (k :: seen) xs k (List.mem_cons_self _ _)]
        simp
      · rw [List.count_cons]
        have : (x == k) = false := by simp; exact fun he => hkx he.symm
        rw [this]
        have hk2 : k ∉ x :: seen := by
          intro hmem
          rcases List.mem_cons.mp hmem with he | he
          · exact hkx he
          · exact hk he
        rw [ih (x :: seen) hk2]
        simp [List.mem_cons, hkx]

theorem count_firstDedup (l : List String) (k : String) :
    (firstDedup l).count k = if k ∈ l then 1 else 0 :=
  count_firstDedup_go [] l k (List.not_mem_nil k)

end SqlStatic

namespace SqlStatic

/-! ## Projections of the aggregation through the query loop -/

theorem processSelect_tsf (dc ds : Option String) (s2f : SMap) (aliasP cteP : LMap)
    (q : QueryStat) (acc : Acc) (sel : QExpr) :
    (processSelect dc ds s2f aliasP cteP q acc sel).tsf = acc.tsf := rfl

theorem processSelect_tsqf (dc ds : Option String) (s2f : SMap) (aliasP cteP : LMap)
    (q : QueryStat) (acc : Acc) (sel : QExpr) :
    (processSelect dc ds s2f aliasP cteP q acc sel).tsqf = acc.tsqf := rfl

theorem foldl_processSelect_tsf (dc ds : Option String) (s2f : SMap) (aliasP cteP : LMap)
    (q : QueryStat) (l : List QExpr) (acc : Acc) :
    (l.foldl (processSelect dc ds s2f aliasP cteP q) acc).tsf = acc.tsf := by
  induction l generalizing acc with
  | nil => rfl
  | cons s ss ih => rw [List.foldl_cons, ih, processSelect_tsf]

theorem foldl_processSelect_tsqf (dc ds : Option String) (s2f : SMap) (aliasP cteP : LMap)
    (q : QueryStat) (l : List QExpr) (acc : Acc) :
    (l.foldl (processSelect dc ds s2f aliasP cteP q) acc).tsqf = acc.tsqf := by
  induction l generalizing acc with
  | nil => rfl
  | cons s ss ih => rw [List.foldl_cons, ih, processSelect_tsqf]

theorem processQuery_tsf (parse : String → Except Unit QStmt) (dc ds : Option String)
    (s2f : SMap) (acc : Acc) (q : QueryStat) :
    (processQuery parse dc ds s2f acc q).tsf =
      (creditsOf parse dc ds s2f q).foldl (fun m k => cadd m k q.runquantity) acc.tsf := by
  cases hp : parse q.query with
  | error e => simp only [processQuery, hp]
  | ok stmt =>
    simp only [processQuery, hp]
    rw [foldl_processSelect_tsf]

theorem processQuery_tsqf (parse : String → Except Unit QStmt) (dc ds : Option String)
    (s2f : SMap) (acc : Acc) (q : QueryStat) :
    (processQuery parse dc ds s2f acc q).tsqf =
      (firstDedup (creditsOf parse dc ds s2f q)).foldl
        (fun m k => cadd m k q.runquantity) acc.tsqf := by
  cases hp : parse q.query with
  | error e => simp only [processQuery, hp]
  | ok stmt =>
    simp only [processQuery, hp]
    rw [foldl_processSelect_tsqf]

theorem cget_processQuery_tsf (parse : String → Except Unit QStmt) (dc ds : Option String)
    (s2f : SMap) (acc : Acc) (q : QueryStat) (T : String) :
    cget (processQuery parse dc ds s2f acc q).tsf T =
      cget acc.tsf T + q.runquantity * ((creditsOf parse dc ds s2f q).count T : Int) := by
  rw [processQuery_tsf, cget_foldl_cadd]

theorem cget_processQuery_tsqf (parse : String → Except Unit QStmt) (dc ds : Option String)
    (s2f : SMap) (acc : Acc) (q : QueryStat) (T : String) :
    cget (processQuery parse dc ds s2f acc q).tsqf T =
      cget acc.tsqf T +
        q.runquantity * (if T ∈ creditsOf parse dc ds s2f q then (1 : Int) else 0) := by
  rw [processQuery_tsqf, cget_foldl_cadd, count_firstDedup]
  by_cases h : T ∈ creditsOf parse dc ds s2f q <;> simp [h]

theorem cget_queryFold_tsf (parse : String → Except Unit QStmt) (dc ds : Option String)
    (s2f : SMap) (Q : List QueryStat) (acc0 : Acc) (T : String) :
    cget (Q.foldl (processQuery parse dc ds s2f) acc0).tsf T =
      cget acc0.tsf T +
        (Q.map fun q =>
          q.runquantity * ((creditsOf parse dc ds s2f q).count T : Int)).sum := by
  induction Q generalizing acc0 with
  | nil => simp
  | cons q qs ih =>
    rw [List.foldl_cons, ih, cget_processQuery_tsf]
    simp only [List.map_cons, List.sum_cons]
    ring

theorem cget_queryFold_tsqf (parse : String → Except Unit QStmt) (dc ds : Option String)
    (s2f : SMap) (Q : List QueryStat) (acc0 : Acc) (T : String) :
    cget (Q.foldl (processQuery parse dc ds s2f) acc0).tsqf T =
      cget acc0.tsqf T +
        (Q.map fun q =>
          q.runquantity *
            (if T ∈ creditsOf parse dc ds s2f q then (1 : Int) else 0)).sum := by
  induction Q generalizing acc0 with
  | nil => simp
  | cons q qs ih =>
    rw [List.foldl_cons, ih, cget_processQuery_tsqf]
    simp only [List.map_cons, List.sum_cons]
    ring

/-! ## Key-set invariants of the raw scan counter -/

theorem keys_cadd (m : CMap) (k : String) (v : Int) :
    (cadd m k v).map Prod.fst =
      if k ∈ m.map Prod.fst then m.map Prod.fst else m.map Prod.fst ++ [k] := by
  induction m with
  | nil => simp [cadd]
  | cons p rest ih =>
    obtain ⟨k', v'⟩ := p
    simp only [cadd]
    by_cases h : k' = k
    · subst h
      simp
    · rw [if_neg h]
      simp only [List.map_cons, ih]
      by_cases hm : k ∈ rest.map Prod.fst
      · rw [if_pos hm, if_pos (List.mem_cons_of_mem _ hm)]
      · rw [if_neg hm, if_neg, List.cons_append]
        intro hc
        rcases List.mem_cons.mp hc with he | he
        · exact h he.symm
        · exact hm he

theorem nodup_keys_cadd {m : CMap} (k : String) (v : Int)
    (h : (m.map Prod.fst).Nodup) : ((cadd m k v).map Prod.fst).Nodup := by
  rw [keys_cadd]
  by_cases hm : k ∈ m.map Prod.fst
  · rw [if_pos hm]; exact h
  · rw [if_neg hm]
    simp [List.nodup_append, h, hm]

/-- The invariant the raw `table_scan_freq` counter keeps through the
query loop: distinct keys, each of scan-credit origin. -/
def TsfOk (s2f : SMap) (m : CMap) : Prop :=
  (m.map Prod.fst).Nodup ∧ ∀ p ∈ m, ScanKeyOk s2f p.1

theorem tsfOk_cadd {s2f : SMap} {m : CMap} {k : String} (v : Int)
    (hk : ScanKeyOk s2f k) (h : TsfOk s2f m) : TsfOk s2f (cadd m k v) := by
  refine ⟨nodup_keys_cadd k v h.1, ?_⟩
  intro p hp
  rcases mem_cadd hp with h1 | h1
  · rw [h1]; exact hk
  · exact h.2 p h1

theorem tsfOk_processQuery (parse : String → Except Unit QStmt) (dc ds : Option String)
    (s2f : SMap) (acc : Acc) (q : QueryStat)
    (h : TsfOk s2f acc.tsf) : TsfOk s2f (processQuery parse dc ds s2f acc q).tsf := by
  rw [processQuery_tsf]
  refine foldl_inv (fun m : CMap => TsfOk s2f m) _ _ _ h ?_
  intro m k hkmem hm
  exact tsfOk_cadd _ (creditsOf_scanKeyOk parse dc ds s2f q k hkmem) hm

theorem tsfOk_queryFold (parse : String → Except Unit QStmt) (dc ds : Option String)
    (s2f : SMap) (Q : List QueryStat) :
    TsfOk s2f (Q.foldl (processQuery parse dc ds s2f) ⟨[], [], [], [], [], [], []⟩).tsf := by
  refine foldl_inv (fun a : Acc => TsfOk s2f a.tsf) _ _ _ ?_ ?_
  · exact ⟨List.nodup_nil, fun p hp => absurd hp (List.not_mem_nil p)⟩
  · intro a q hq ha
    exact tsfOk_processQuery parse dc ds s2f a q ha

end SqlStatic

namespace SqlStatic

/-! ## The step-6 output normalization of the scan maps -/

theorem cget_eq_zero_of_not_mem {m : CMap} {T : String}
    (h : T ∉ m.map Prod.fst) : cget m T = 0 := by
  induction m with
  | nil => rfl
  | cons p rest ih =>
    obtain ⟨k, v⟩ := p
    simp only [List.map_cons, List.mem_cons] at h
    push_neg at h
    simp only [cget]
    rw [if_neg fun he => h.1 he.symm]
    exact ih h.2

theorem cget_tsfPhys (s2f : SMap) (entries : CMap) (m0 : CMap) (T : String)
    (hT : isPhys T = true)
    (hnd : (entries.map Prod.fst).Nodup)
    (hred : ∀ p ∈ entries, isPhys p.1 = false →
        ∀ mp, lookupS s2f p.1 = some mp → isPhys mp = false) :
    cget (entries.foldl (fun m p =>
        if isPhys p.1 then cadd m p.1 p.2
        else match lookupS s2f p.1 with
          | some mapped => if isPhys mapped then cadd m mapped p.2 else m
          | none => m) m0) T = cget m0 T + cget entries T := by
  induction entries generalizing m0 with
  | nil => simp [cget]
  | cons p rest ih =>
    obtain ⟨k, v⟩ := p
    rw [List.foldl_cons]
    have hnd' : (rest.map Prod.fst).Nodup := (List.nodup_cons.mp hnd).2
    have hknotin : k ∉ rest.map Prod.fst := (List.nodup_cons.mp hnd).1
    have hred' : ∀ p ∈ rest, isPhys p.1 = false →
        ∀ mp, lookupS s2f p.1 = some mp → isPhys mp = false :=
      fun p hp => hred p (List.mem_cons_of_mem _ hp)
    by_cases hk : isPhys k = true
    · rw [if_pos hk, ih _ hnd' hred', cget_cadd]
      simp only [cget]
      by_cases hkT : k = T
      · subst hkT
        rw [if_pos rfl, if_pos rfl, cget_eq_zero_of_not_mem hknotin]
        ring
      · rw [if_neg hkT, if_neg hkT]
        ring
    · have hkF : isPhys k = false := by
        rw [Bool.not_eq_true] at hk; exact hk
      have hstep : (if isPhys (k, v).1 then cadd m0 (k, v).1 (k, v).2
          else match lookupS s2f (k, v).1 with
            | some mapped => if isPhys mapped then cadd m0 mapped (k, v).2 else m0
            | none => m0) = m0 := by
        rw [if_neg hk]
        cases hl : lookupS s2f (k, v).1 with
        | none => rfl
        | some mp =>
          have hmpF := hred (k, v) (List.mem_cons_self _ _) hkF mp hl
          dsimp only
          rw [if_neg (by rw [hmpF]; exact Bool.false_ne_true)]
      rw [hstep, ih _ hnd' hred']
      simp only [cget]
      have hkT : ¬(k = T) := fun he => by rw [he, hT] at hkF; simp at hkF
      rw [if_neg hkT]

theorem tsfPhys_keys_phys (s2f : SMap) (entries : CMap) (m0 : CMap)
    (h0 : ∀ p ∈ m0, isPhys p.1 = true) :
    ∀ p ∈ entries.foldl (fun m p =>
        if isPhys p.1 then cadd m p.1 p.2
        else match lookupS s2f p.1 with
          | some mapped => if isPhys mapped then cadd m mapped p.2 else m
          | none => m) m0, isPhys p.1 = true := by
  refine foldl_inv (fun m : CMap => ∀ p ∈ m, isPhys p.1 = true) _ _ _ h0 ?_
  intro m p hp hm r hr
  by_cases hk : isPhys p.1 = true
  · rw [if_pos hk] at hr
    rcases mem_cadd hr with h1 | h1
    · rw [h1]; exact hk
    · exact hm r h1
  · rw [if_neg hk] at hr
    cases hl : lookupS s2f p.1 with
    | none =>
      rw [hl] at hr
      dsimp only at hr
      exact hm r hr
    | some mp =>
      rw [hl] at hr
      dsimp only at hr
      by_cases hmp : isPhys mp = true
      · rw [if_pos hmp] at hr
        rcases mem_cadd hr with h1 | h1
        · rw [h1]; exact hmp
        · exact hm r h1
      · rw [if_neg hmp] at hr
        exact hm r hr

theorem cget_tsqf_filter (m : CMap) (T : String) (hT : isPhys T = true) :
    cget (m.filter fun p => isPhys p.1) T = cget m T := by
  induction m with
  | nil => rfl
  | cons p rest ih =>
    obtain ⟨k, v⟩ := p
    rw [List.filter_cons]
    by_cases hk : isPhys k = true
    · rw [if_pos (by simpa using hk)]
      simp only [cget]
      by_cases hkT : k = T
      · rw [if_pos hkT, if_pos hkT]
      · rw [if_neg hkT, if_neg hkT, ih]
    · rw [if_neg (by simpa using hk)]
      have hkT : ¬(k = T) := fun he => hk (he ▸ hT)
      simp only [cget]
      rw [if_neg hkT, ih]

theorem cget_filter_nonphys (m : CMap) (T : String) (hT : isPhys T = false) :
    cget (m.filter fun p => isPhys p.1) T = 0 := by
  apply cget_eq_zero_of_not_mem
  intro hmem
  rcases List.mem_map.mp hmem with ⟨p, hp, he⟩
  have hph := (List.mem_filter.mp hp).2
  rw [he, hT] at hph
  exact Bool.false_ne_true hph

/-! ## The per-query indicator-versus-multiplicity comparison -/

theorem indicator_le_count (l : List String) (T : String) :
    (if T ∈ l then (1 : Int) else 0) ≤ (l.count T : Int) := by
  by_cases hm : T ∈ l
  · rw [if_pos hm]
    exact_mod_cast List.count_pos_iff.mpr hm
  · rw [if_neg hm]
    exact_mod_cast Nat.zero_le _

theorem indicator_eq_count_of_le_one {l : List String} {T : String}
    (h : l.count T ≤ 1) : (if T ∈ l then (1 : Int) else 0) = (l.count T : Int) := by
  by_cases hm : T ∈ l
  · rw [if_pos hm]
    have h1 : 0 < l.count T := List.count_pos_iff.mpr hm
    have : l.count T = 1 := by omega
    rw [this]
    rfl
  · rw [if_neg hm, List.count_eq_zero_of_not_mem hm]
    rfl

end SqlStatic

namespace SqlStatic

/-- The scan-credit keys one query contributes, under the defaults and
the short-name index computed from the full input (empty when the
default-schema extraction raises). -/
def queryCredits (parse : String → Except Unit QStmt) (ddlRaw : List RawDDL)
    (qRaw : List RawQuery) (q : QueryStat) : List String :=
  match extractDefault parse (toDDLList ddlRaw) with
  | .error _ => []
  | .ok dcds =>
    creditsOf parse dcds.1 dcds.2
      (shortIndexOf parse (toDDLList ddlRaw) (toQueryStatList qRaw) dcds.1 dcds.2) q

/-- Weight conservation between the two normalized scan maps, for any
short-name index that never redirects a credited non-physical key onto a
physical name. -/
theorem scan_weight_conservation (parse : String → Except Unit QStmt)
    (dc ds : Option String) (s2f : SMap) (Q : List QueryStat) (T : String)
    (hw : ∀ q ∈ Q, 0 ≤ q.runquantity)
    (hred : ∀ k, isPhys k = false → ScanKeyOk s2f k →
        ∀ mp, lookupS s2f k = some mp → isPhys mp = false) :
    cget ((Q.foldl (processQuery parse dc ds s2f) ⟨[], [], [], [], [], [], []⟩).tsqf.filter
        fun r => isPhys r.1) T ≤
      cget ((Q.foldl (processQuery parse dc ds s2f) ⟨[], [], [], [], [], [], []⟩).tsf.foldl
        (fun m r =>
          if isPhys r.1 then cadd m r.1 r.2
          else match lookupS s2f r.1 with
            | some mapped => if isPhys mapped then cadd m mapped r.2 else m
            | none => m) []) T ∧
      ((∀ q ∈ Q, (creditsOf parse dc ds s2f q).count T ≤ 1) →
        cget ((Q.foldl (processQuery parse dc ds s2f) ⟨[], [], [], [], [], [], []⟩).tsqf.filter
            fun r => isPhys r.1) T =
          cget ((Q.foldl (processQuery parse dc ds s2f) ⟨[], [], [], [], [], [], []⟩).tsf.foldl
            (fun m r =>
              if isPhys r.1 then cadd m r.1 r.2
              else match lookupS s2f r.1 with
                | some mapped => if isPhys mapped then cadd m mapped r.2 else m
                | none => m) []) T) := by
  set acc := Q.foldl (processQuery parse dc ds s2f) ⟨[], [], [], [], [], [], []⟩ with hA
  have hAcc : TsfOk s2f acc.tsf := by
    rw [hA]; exact tsfOk_queryFold parse dc ds s2f Q
  by_cases hT : isPhys T = true
  · have hOut1 : cget (acc.tsqf.filter fun r => isPhys r.1) T = cget acc.tsqf T :=
      cget_tsqf_filter _ _ hT
    have hOut2 := cget_tsfPhys s2f acc.tsf [] T hT hAcc.1
      (fun r hr hF mp hmp => hred r.1 hF (hAcc.2 r hr) mp hmp)
    have hSum1 := cget_queryFold_tsf parse dc ds s2f Q ⟨[], [], [], [], [], [], []⟩ T
    have hSum2 := cget_queryFold_tsqf parse dc ds s2f Q ⟨[], [], [], [], [], [], []⟩ T
    rw [← hA] at hSum1 hSum2
    have h0 : cget (Acc.tsf ⟨[], [], [], [], [], [], []⟩) T = 0 := rfl
    have h0q : cget (Acc.tsqf ⟨[], [], [], [], [], [], []⟩) T = 0 := rfl
    rw [h0, zero_add] at hSum1
    rw [h0q, zero_add] at hSum2
    have hE0 : cget ([] : CMap) T = 0 := rfl
    rw [hE0, zero_add] at hOut2
    constructor
    · rw [hOut1, hOut2, hSum1, hSum2]
      refine List.sum_le_sum ?_
      intro q hq
      exact mul_le_mul_of_nonneg_left (indicator_le_count _ _) (hw q hq)
    · intro hcnt
      rw [hOut1, hOut2, hSum1, hSum2]
      have hmaps : (Q.map fun q =>
            q.runquantity * (if T ∈ creditsOf parse dc ds s2f q then (1 : Int) else 0)) =
          Q.map fun q =>
            q.runquantity * ((creditsOf parse dc ds s2f q).count T : Int) := by
        refine List.map_congr_left ?_
        intro q hq
        rw [indicator_eq_count_of_le_one (hcnt q hq)]
      rw [hmaps]
  · have hTF : isPhys T = false := by rwa [Bool.not_eq_true] at hT
    have hL : cget (acc.tsqf.filter fun r => isPhys r.1) T = 0 :=
      cget_filter_nonphys _ _ hTF
    have hkeys := tsfPhys_keys_phys s2f acc.tsf []
      (fun r hr => absurd hr (List.not_mem_nil r))
    have hR : cget (acc.tsf.foldl (fun m r =>
        if isPhys r.1 then cadd m r.1 r.2
        else match lookupS s2f r.1 with
          | some mapped => if isPhys mapped then cadd m mapped r.2 else m
          | none => m) []) T = 0 := by
      apply cget_eq_zero_of_not_mem
      intro hmem
      rcases List.mem_map.mp hmem with ⟨r, hr, he⟩
      have hphys := hkeys r hr
      rw [he, hTF] at hphys
      exact Bool.false_ne_true hphys
    exact ⟨le_of_eq (by rw [hL, hR]), fun _ => by rw [hL, hR]⟩

end SqlStatic

namespace SqlStatic

/-- C5 (corrected): on inputs whose ingested run weights are all
non-negative, for every table key `T` the reported
`table_scan_query_freq` value is at most the `table_scan_freq` value,
with equality whenever every query's scan-credit list mentions `T` at
most once.  (The unrestricted claim is refuted by `C5_counterexample`:
a negative weight reverses the inequality.) -/
theorem C5_amended (parse : String → Except Unit QStmt) (ddlRaw : List RawDDL)
    (qRaw : List RawQuery) (p : ContextPack)
    (hok : buildContextPack parse ddlRaw qRaw = Except.ok p)
    (hw : ∀ q ∈ toQueryStatList qRaw, 0 ≤ q.runquantity) (T : String) :
    cget p.table_scan_query_freq T ≤ cget p.table_scan_freq T ∧
      ((∀ q ∈ toQueryStatList qRaw, (queryCredits parse ddlRaw qRaw q).count T ≤ 1) →
        cget p.table_scan_query_freq T = cget p.table_scan_freq T) := by
  cases hE : extractDefault parse (toDDLList ddlRaw) with
  | error e =>
    simp only [buildContextPack, hE] at hok
    exact absurd hok (by simp)
  | ok dcds =>
    simp only [buildContextPack, hE] at hok
    rw [Except.ok.injEq] at hok
    subst hok
    dsimp only
    have hred : ∀ k, isPhys k = false →
        ScanKeyOk (shortIndexOf parse (toDDLList ddlRaw) (toQueryStatList qRaw)
          dcds.1 dcds.2) k →
        ∀ mp, lookupS (shortIndexOf parse (toDDLList ddlRaw) (toQueryStatList qRaw)
          dcds.1 dcds.2) k = some mp → isPhys mp = false :=
      fun k hF hok2 mp hmp =>
        no_phys_redirect parse (toDDLList ddlRaw) (toQueryStatList qRaw)
          dcds.1 dcds.2 hF hok2 hmp
    have hmain := scan_weight_conservation parse dcds.1 dcds.2
      (shortIndexOf parse (toDDLList ddlRaw) (toQueryStatList qRaw) dcds.1 dcds.2)
      (toQueryStatList qRaw) T hw hred
    refine ⟨hmain.1, ?_⟩
    intro hcnt
    refine hmain.2 ?_
    intro q hq
    have hc := hcnt q hq
    unfold queryCredits at hc
    rw [hE] at hc
    exact hc

/-- Concrete instance of `C5_amended` at Scenario A: the single query
scans `quests.public.h_client` once with weight 5, and the two scan maps
agree there. -/
theorem C5_amended_witness :
    ∃ p, buildContextPack parseTrino ddlA qsA = Except.ok p ∧
      cget p.table_scan_query_freq "quests.public.h_client" =
        cget p.table_scan_freq "quests.public.h_client" := by
  cases hE : buildContextPack parseTrino ddlA qsA with
  | error e =>
    have hs : (buildContextPack parseTrino ddlA qsA).toOption.isSome = true := by decide
    rw [hE] at hs
    simp [Except.toOption] at hs
  | ok p =>
    exact ⟨p, rfl,
      (C5_amended parseTrino ddlA qsA p hE (by decide) "quests.public.h_client").2
        (by decide)⟩

end SqlStatic

namespace SqlStatic

/-! ## Key-shape and sign invariants for the full pack (C2) -/

/-- The short-name index an input gives rise to (empty when the
default-schema extraction raises). -/
def shortIndexForInput (parse : String → Except Unit QStmt) (ddlRaw : List RawDDL)
    (qRaw : List RawQuery) : SMap :=
  match extractDefault parse (toDDLList ddlRaw) with
  | .error _ => []
  | .ok dcds =>
    shortIndexOf parse (toDDLList ddlRaw) (toQueryStatList qRaw) dcds.1 dcds.2

/-- The table parts a `column_usage_freq` key can carry: a physical
name, the reserved bucket, or a value of the short-name index (the
unchecked short-name branch of `_expand_to_physical`). -/
def CuBase (s2f : SMap) (b : String) : Prop :=
  isPhys b = true ∨ b = "__unknown__" ∨ ∃ n, lookupS s2f n = some b

def CuKeyOk (s2f : SMap) (k : String) : Prop :=
  ∃ b c, k = b ++ "." ++ c ∧ CuBase s2f b

theorem expandToPhysical_elem (bases : List String) (aliasM cteM : LMap) (s2f : SMap) :
    ∀ x ∈ expandToPhysical bases aliasM cteM s2f,
      isPhys x = true ∨ ∃ n, lookupS s2f n = some x := by
  intro x hx
  have hx2 := mem_of_mem_firstDedup hx
  rcases List.mem_flatMap.mp hx2 with ⟨b, hb, hxb⟩
  by_cases hbe : b = ""
  · rw [if_pos hbe] at hxb
    exact absurd hxb (List.not_mem_nil x)
  · rw [if_neg hbe] at hxb
    cases ha : lookupL aliasM b with
    | some xs =>
      rw [ha] at hxb
      dsimp only at hxb
      exact Or.inl (List.mem_filter.mp hxb).2
    | none =>
      rw [ha] at hxb
      dsimp only at hxb
      cases hc : lookupL cteM b with
      | some xs =>
        rw [hc] at hxb
        dsimp only at hxb
        exact Or.inl (List.mem_filter.mp hxb).2
      | none =>
        rw [hc] at hxb
        dsimp only at hxb
        cases hs : lookupS s2f b with
        | some fq =>
          rw [hs] at hxb
          dsimp only at hxb
          rw [List.mem_singleton.mp hxb]
          exact Or.inr ⟨b, hs⟩
        | none =>
          rw [hs] at hxb
          dsimp only at hxb
          by_cases hph : isPhys b = true
          · rw [if_pos hph] at hxb
            rw [List.mem_singleton.mp hxb]
            exact Or.inl hph
          · rw [if_neg hph] at hxb
            exact absurd hxb (List.not_mem_nil x)

theorem mem_lset {m : LMap} {k : String} {v : List String} {q : String × List String}
    (h : q ∈ lset m k v) : q.2 = v ∨ q ∈ m := by
  induction m with
  | nil =>
    simp only [lset, List.mem_singleton] at h
    subst h; left; rfl
  | cons r rest ih =>
    obtain ⟨k', v'⟩ := r
    simp only [lset] at h
    split at h
    next hk =>
      rcases List.mem_cons.mp h with rfl | h
      · left; rfl
      · right; exact List.mem_cons_of_mem _ h
    next hk =>
      rcases List.mem_cons.mp h with rfl | h
      · right; exact List.mem_cons_self _ _
      · rcases ih h with h1 | h1
        · left; exact h1
        · right; exact List.mem_cons_of_mem _ h1

theorem mem_addToSetL {m : LMap} {k x : String} {q : String × List String}
    (h : q ∈ addToSetL m k x) :
    ∀ y ∈ q.2, y = x ∨ ∃ r ∈ m, y ∈ r.2 := by
  intro y hy
  unfold addToSetL at h
  cases hl : lookupL m k with
  | some xs =>
    rw [hl] at h
    dsimp only at h
    by_cases hxm : x ∈ xs
    · rw [if_pos hxm] at h
      exact Or.inr ⟨q, h, hy⟩
    · rw [if_neg hxm] at h
      rcases mem_lset h with h1 | h1
      · rw [h1] at hy
        rcases List.mem_append.mp hy with h2 | h2
        · exact Or.inr ⟨(k, xs), lookupL_mem hl, h2⟩
        · exact Or.inl (List.mem_singleton.mp h2)
      · exact Or.inr ⟨q, h1, hy⟩
  | none =>
    rw [hl] at h
    dsimp only at h
    rcases mem_lset h with h1 | h1
    · rw [h1] at hy
      exact Or.inl (List.mem_singleton.mp hy)
    · exact Or.inr ⟨q, h1, hy⟩

theorem mem_of_mem_stableInsert {pyLe : α → α → Bool} {x : α} {l : List α} {y : α}
    (h : y ∈ stableInsert pyLe x l) : y = x ∨ y ∈ l := by
  induction l with
  | nil =>
    simp only [stableInsert, List.mem_singleton] at h
    exact Or.inl h
  | cons z zs ih =>
    simp only [stableInsert] at h
    split at h
    · rcases List.mem_cons.mp h with rfl | h
      · exact Or.inr (List.mem_cons_self _ _)
      · rcases ih h with h1 | h1
        · exact Or.inl h1
        · exact Or.inr (List.mem_cons_of_mem _ h1)
    · rcases List.mem_cons.mp h with rfl | h
      · exact Or.inl rfl
      · exact Or.inr h

theorem mem_of_mem_stableSortBy {pyLe : α → α → Bool} {l : List α} {y : α}
    (h : y ∈ stableSortBy pyLe l) : y ∈ l := by
  unfold stableSortBy at h
  have main : ∀ (l2 : List α) (acc : List α), y ∈ l2.foldl (fun a x => stableInsert pyLe x a) acc →
      y ∈ acc ∨ y ∈ l2 := by
    intro l2
    induction l2 with
    | nil => exact fun acc ha => Or.inl ha
    | cons z zs ih =>
      intro acc ha
      rw [List.foldl_cons] at ha
      rcases ih _ ha with h1 | h1
      · rcases mem_of_mem_stableInsert h1 with h2 | h2
        · exact Or.inr (h2 ▸ List.mem_cons_self _ _)
        · exact Or.inl h2
      · exact Or.inr (List.mem_cons_of_mem _ h1)
  rcases main l [] h with h1 | h1
  · exact absurd h1 (List.not_mem_nil y)
  · exact h1

theorem selAliasMapPhys_elem (sel : QExpr) (aliasP : LMap) (s2f : SMap)
    (hAP : ∀ r ∈ aliasP, ∀ x ∈ r.2, isPhys x = true ∨ ∃ n, lookupS s2f n = some x) :
    ∀ r ∈ selAliasMapPhys sel aliasP, ∀ x ∈ r.2,
      isPhys x = true ∨ ∃ n, lookupS s2f n = some x := by
  unfold selAliasMapPhys
  refine foldl_inv (fun m : LMap => ∀ r ∈ m, ∀ x ∈ r.2,
    isPhys x = true ∨ ∃ n, lookupS s2f n = some x) _ _ _ ?_ ?_
  · exact fun r hr => absurd hr (List.not_mem_nil r)
  · intro m t ht hm r hr
    cases han : aliasNameOfOpt t.tAl with
    | none =>
      rw [han] at hr
      exact hm r hr
    | some a =>
      rw [han] at hr
      dsimp only at hr
      by_cases hne : ((lookupL aliasP a).getD []) ≠ []
      · rw [if_pos hne] at hr
        rcases mem_lset hr with h1 | h1
        · intro x hx
          rw [h1] at hx
          cases hl : lookupL aliasP a with
          | none => rw [hl] at hx; exact absurd hx (List.not_mem_nil x)
          | some bs =>
            rw [hl] at hx
            exact hAP (a, bs) (lookupL_mem hl) x hx
        · exact hm r h1
      · rw [if_neg hne] at hr
        exact hm r hr

end SqlStatic

namespace SqlStatic

theorem cuPass1Step_ok (s2f : SMap) (selAliasMap : LMap) (w : Int) (hw : 0 ≤ w)
    (p : CMap × LMap) (c : String × Option String)
    (hp : (∀ r ∈ p.1, 0 ≤ r.2 ∧ CuKeyOk s2f r.1) ∧
      (∀ r ∈ p.2, ∀ x ∈ r.2, isPhys x = true)) :
    (∀ r ∈ (cuPass1Step s2f selAliasMap w p c).1, 0 ≤ r.2 ∧ CuKeyOk s2f r.1) ∧
      (∀ r ∈ (cuPass1Step s2f selAliasMap w p c).2, ∀ x ∈ r.2, isPhys x = true) := by
  obtain ⟨cname, cqual⟩ := c
  unfold cuPass1Step
  dsimp only
  by_cases hcn : normId cname = ""
  · rw [if_pos hcn]; exact hp
  · rw [if_neg hcn]
    cases cqual with
    | none => exact hp
    | some qs =>
      dsimp only
      by_cases hqs : qs ≠ ""
      · rw [if_pos hqs]
        refine foldl_inv (fun p2 : CMap × LMap =>
          (∀ r ∈ p2.1, 0 ≤ r.2 ∧ CuKeyOk s2f r.1) ∧
            (∀ r ∈ p2.2, ∀ x ∈ r.2, isPhys x = true)) _ _ _ hp ?_
        intro p2 fq hfq hp2
        by_cases hph : isPhys fq = true
        · rw [if_pos hph]
          constructor
          · intro r hr
            refine ⟨cadd_nonneg (fun t ht => (hp2.1 t ht).1) hw r hr, ?_⟩
            rcases mem_cadd hr with h1 | h1
            · rw [h1]; exact ⟨fq, normId cname, rfl, Or.inl hph⟩
            · exact (hp2.1 r h1).2
          · intro r hr x hx
            rcases mem_addToSetL hr x hx with h1 | ⟨r0, hr0, hx0⟩
            · rw [h1]; exact hph
            · exact hp2.2 r0 hr0 x hx0
        · rw [if_neg hph]; exact hp2
      · rw [if_neg hqs]; exact hp

theorem cuPass1_fold_ok (s2f : SMap) (selAliasMap : LMap) (w : Int) (hw : 0 ≤ w)
    (cols : List (String × Option String)) (p0 : CMap × LMap)
    (h0 : (∀ r ∈ p0.1, 0 ≤ r.2 ∧ CuKeyOk s2f r.1) ∧
      (∀ r ∈ p0.2, ∀ x ∈ r.2, isPhys x = true)) :
    (∀ r ∈ (cols.foldl (cuPass1Step s2f selAliasMap w) p0).1,
        0 ≤ r.2 ∧ CuKeyOk s2f r.1) ∧
      (∀ r ∈ (cols.foldl (cuPass1Step s2f selAliasMap w) p0).2,
        ∀ x ∈ r.2, isPhys x = true) := by
  refine foldl_inv (fun p2 : CMap × LMap =>
    (∀ r ∈ p2.1, 0 ≤ r.2 ∧ CuKeyOk s2f r.1) ∧
      (∀ r ∈ p2.2, ∀ x ∈ r.2, isPhys x = true)) _ _ _ h0 ?_
  intro p2 c hc hp2
  exact cuPass1Step_ok s2f selAliasMap w hw p2 c hp2

theorem cuPass2Step_ok (s2f : SMap) (w : Int) (hw : 0 ≤ w)
    (selBasesPhys : List String) (colPref : LMap) (sab : Option (List String))
    (hSB : ∀ x ∈ selBasesPhys, isPhys x = true ∨ ∃ n, lookupS s2f n = some x)
    (hCP : ∀ r ∈ colPref, ∀ x ∈ r.2, isPhys x = true)
    (hSAB : ∀ bs, sab = some bs →
      ∀ x ∈ bs, isPhys x = true ∨ ∃ n, lookupS s2f n = some x)
    (m : CMap) (c : String × Option String)
    (hm : ∀ r ∈ m, 0 ≤ r.2 ∧ CuKeyOk s2f r.1) :
    ∀ r ∈ cuPass2Step w selBasesPhys colPref sab m c, 0 ≤ r.2 ∧ CuKeyOk s2f r.1 := by
  have hcaddB : ∀ (b cn : String), CuBase s2f b →
      ∀ r ∈ cadd m (b ++ "." ++ cn) w, 0 ≤ r.2 ∧ CuKeyOk s2f r.1 := by
    intro b cn hb r hr
    refine ⟨cadd_nonneg (fun t ht => (hm t ht).1) hw r hr, ?_⟩
    rcases mem_cadd hr with h1 | h1
    · rw [h1]; exact ⟨b, cn, rfl, hb⟩
    · exact (hm r h1).2
  obtain ⟨cname, cqual⟩ := c
  unfold cuPass2Step
  dsimp only
  by_cases hq : (match cqual with
      | some qs => qs != ""
      | none => false) = true
  · rw [if_pos hq]; exact hm
  · rw [if_neg hq]
    by_cases hcn : normId cname = ""
    · rw [if_pos hcn]; exact hm
    · rw [if_neg hcn]
      cases selBasesPhys with
      | cons only tl =>
        cases tl with
        | nil =>
          exact hcaddB only (normId cname)
            (by rcases hSB only (List.mem_cons_self _ _) with h | h
                · exact Or.inl h
                · exact Or.inr (Or.inr h))
        | cons b2 tl2 =>
          dsimp only
          cases hLP : (lookupL colPref (normId cname)).getD [] with
          | cons onlyB tlB =>
            cases tlB with
            | nil =>
              have honlyB : isPhys onlyB = true := by
                cases hL : lookupL colPref (normId cname) with
                | none => rw [hL] at hLP; simp at hLP
                | some bs =>
                  rw [hL] at hLP
                  simp only [Option.getD_some] at hLP
                  exact hCP (normId cname, bs) (lookupL_mem hL) onlyB
                    (by rw [hLP]; exact List.mem_cons_self _ _)
              exact hcaddB onlyB (normId cname) (Or.inl honlyB)
            | cons b3 tl3 =>
              dsimp only
              cases sab with
              | none =>
                exact hcaddB "__unknown__" (normId cname) (Or.inr (Or.inl rfl))
              | some bs =>
                dsimp only
                by_cases hbs : bs ≠ []
                · rw [if_pos hbs]
                  refine foldl_inv (fun m2 : CMap =>
                    ∀ r ∈ m2, 0 ≤ r.2 ∧ CuKeyOk s2f r.1) _ _ _ hm ?_
                  intro m2 fq hfq hm2 r hr
                  refine ⟨cadd_nonneg (fun t ht => (hm2 t ht).1) hw r hr, ?_⟩
                  rcases mem_cadd hr with h1 | h1
                  · rw [h1]
                    refine ⟨fq, normId cname, rfl, ?_⟩
                    rcases hSAB bs rfl fq hfq with h | h
                    · exact Or.inl h
                    · exact Or.inr (Or.inr h)
                  · exact (hm2 r h1).2
                · rw [if_neg hbs]
                  exact hcaddB "__unknown__" (normId cname) (Or.inr (Or.inl rfl))
          | nil =>
            dsimp only
            cases sab with
            | none =>
              exact hcaddB "__unknown__" (normId cname) (Or.inr (Or.inl rfl))
            | some bs =>
              dsimp only
              by_cases hbs : bs ≠ []
              · rw [if_pos hbs]
                refine foldl_inv (fun m2 : CMap =>
                  ∀ r ∈ m2, 0 ≤ r.2 ∧ CuKeyOk s2f r.1) _ _ _ hm ?_
                intro m2 fq hfq hm2 r hr
                refine ⟨cadd_nonneg (fun t ht => (hm2 t ht).1) hw r hr, ?_⟩
                rcases mem_cadd hr with h1 | h1
                · rw [h1]
                  refine ⟨fq, normId cname, rfl, ?_⟩
                  rcases hSAB bs rfl fq hfq with h | h
                  · exact Or.inl h
                  · exact Or.inr (Or.inr h)
                · exact (hm2 r h1).2
              · rw [if_neg hbs]
                exact hcaddB "__unknown__" (normId cname) (Or.inr (Or.inl rfl))
      | nil =>
        dsimp only
        cases hLP : (lookupL colPref (normId cname)).getD [] with
        | cons onlyB tlB =>
          cases tlB with
          | nil =>
            have honlyB : isPhys onlyB = true := by
              cases hL : lookupL colPref (normId cname) with
              | none => rw [hL] at hLP; simp at hLP
              | some bs =>
                rw [hL] at hLP
                simp only [Option.getD_some] at hLP
                exact hCP (normId cname, bs) (lookupL_mem hL) onlyB
                  (by rw [hLP]; exact List.mem_cons_self _ _)
            exact hcaddB onlyB (normId cname) (Or.inl honlyB)
          | cons b3 tl3 =>
            dsimp only
            cases sab with
            | none =>
              exact hcaddB "__unknown__" (normId cname) (Or.inr (Or.inl rfl))
            | some bs =>
              dsimp only
              by_cases hbs : bs ≠ []
              · rw [if_pos hbs]
                refine foldl_inv (fun m2 : CMap =>
                  ∀ r ∈ m2, 0 ≤ r.2 ∧ CuKeyOk s2f r.1) _ _ _ hm ?_
                intro m2 fq hfq hm2 r hr
                refine ⟨cadd_nonneg (fun t ht => (hm2 t ht).1) hw r hr, ?_⟩
                rcases mem_cadd hr with h1 | h1
                · rw [h1]
                  refine ⟨fq, normId cname, rfl, ?_⟩
                  rcases hSAB bs rfl fq hfq with h | h
                  · exact Or.inl h
                  · exact Or.inr (Or.inr h)
                · exact (hm2 r h1).2
              · rw [if_neg hbs]
                exact hcaddB "__unknown__" (normId cname) (Or.inr (Or.inl rfl))
        | nil =>
          dsimp only
          cases sab with
          | none =>
            exact hcaddB "__unknown__" (normId cname) (Or.inr (Or.inl rfl))
          | some bs =>
            dsimp only
            by_cases hbs : bs ≠ []
            · rw [if_pos hbs]
              refine foldl_inv (fun m2 : CMap =>
                ∀ r ∈ m2, 0 ≤ r.2 ∧ CuKeyOk s2f r.1) _ _ _ hm ?_
              intro m2 fq hfq hm2 r hr
              refine ⟨cadd_nonneg (fun t ht => (hm2 t ht).1) hw r hr, ?_⟩
              rcases mem_cadd hr with h1 | h1
              · rw [h1]
                refine ⟨fq, normId cname, rfl, ?_⟩
                rcases hSAB bs rfl fq hfq with h | h
                · exact Or.inl h
                · exact Or.inr (Or.inr h)
              · exact (hm2 r h1).2
            · rw [if_neg hbs]
              exact hcaddB "__unknown__" (normId cname) (Or.inr (Or.inl rfl))

end SqlStatic

namespace SqlStatic

theorem cuPass2_fold_ok (s2f : SMap) (w : Int) (hw : 0 ≤ w)
    (selBasesPhys : List String) (colPref : LMap) (sab : Option (List String))
    (hSB : ∀ x ∈ selBasesPhys, isPhys x = true ∨ ∃ n, lookupS s2f n = some x)
    (hCP : ∀ r ∈ colPref, ∀ x ∈ r.2, isPhys x = true)
    (hSAB : ∀ bs, sab = some bs →
      ∀ x ∈ bs, isPhys x = true ∨ ∃ n, lookupS s2f n = some x)
    (cols : List (String × Option String)) (m0 : CMap)
    (hm0 : ∀ r ∈ m0, 0 ≤ r.2 ∧ CuKeyOk s2f r.1) :
    ∀ r ∈ cols.foldl (cuPass2Step w selBasesPhys colPref sab) m0,
      0 ≤ r.2 ∧ CuKeyOk s2f r.1 := by
  refine foldl_inv (fun m : CMap => ∀ r ∈ m, 0 ≤ r.2 ∧ CuKeyOk s2f r.1) _ _ _ hm0 ?_
  intro m c hc hm
  exact cuPass2Step_ok s2f w hw selBasesPhys colPref sab hSB hCP hSAB m c hm

theorem processSelect_wf (dc ds : Option String) (s2f : SMap) (aliasP cteP : LMap)
    (q : QueryStat) (acc : Acc) (sel : QExpr) :
    (processSelect dc ds s2f aliasP cteP q acc sel).wf = acc.wf := rfl

theorem processSelect_cu_ok (dc ds : Option String) (s2f : SMap) (aliasP cteP : LMap)
    (q : QueryStat) (acc : Acc) (sel : QExpr) (hw : 0 ≤ q.runquantity)
    (hAP : ∀ r ∈ aliasP, ∀ x ∈ r.2, isPhys x = true ∨ ∃ n, lookupS s2f n = some x)
    (hcu : ∀ r ∈ acc.cu, 0 ≤ r.2 ∧ CuKeyOk s2f r.1) :
    ∀ r ∈ (processSelect dc ds s2f aliasP cteP q acc sel).cu,
      0 ≤ r.2 ∧ CuKeyOk s2f r.1 := by
  unfold processSelect
  dsimp only
  have hP1 := cuPass1_fold_ok s2f (selAliasMapPhys sel aliasP) q.runquantity hw
    (columnsOfSel sel) (acc.cu, [])
    ⟨hcu, fun r hr => absurd hr (List.not_mem_nil r)⟩
  refine cuPass2_fold_ok s2f q.runquantity hw _ _ _ ?_ hP1.2 ?_ _ _ hP1.1
  · exact expandToPhysical_elem _ _ _ _
  · intro bs hbs x hx
    cases hS : selAliasMapPhys sel aliasP with
    | nil => rw [hS] at hbs; simp at hbs
    | cons r0 rest =>
      cases rest with
      | nil =>
        rw [hS] at hbs
        simp only [Option.some.injEq] at hbs
        subst hbs
        exact selAliasMapPhys_elem sel aliasP s2f hAP r0
          (by rw [hS]; exact List.mem_cons_self _ _) x hx
      | cons r1 rest2 => rw [hS] at hbs; simp at hbs

theorem processSelect_gbp_nonneg (dc ds : Option String) (s2f : SMap)
    (aliasP cteP : LMap) (q : QueryStat) (acc : Acc) (sel : QExpr)
    (hw : 0 ≤ q.runquantity)
    (h : ∀ g ∈ acc.gbp, 0 ≤ g.gRunquantity) :
    ∀ g ∈ (processSelect dc ds s2f aliasP cteP q acc sel).gbp, 0 ≤ g.gRunquantity := by
  unfold processSelect
  dsimp only
  intro g hg
  split at hg
  · rcases List.mem_append.mp hg with h1 | h1
    · exact h g h1
    · rw [List.mem_singleton.mp h1]
      exact hw
  · exact h g hg

theorem processSelect_jj_nonneg (dc ds : Option String) (s2f : SMap)
    (aliasP cteP : LMap) (q : QueryStat) (acc : Acc) (sel : QExpr)
    (hw : 0 ≤ q.runquantity)
    (h1 : ∀ r ∈ acc.jew, 0 ≤ r.2) (h2 : ∀ r ∈ acc.jkf, 0 ≤ r.2) :
    (∀ r ∈ (processSelect dc ds s2f aliasP cteP q acc sel).jew, 0 ≤ r.2) ∧
      (∀ r ∈ (processSelect dc ds s2f aliasP cteP q acc sel).jkf, 0 ≤ r.2) := by
  unfold processSelect
  dsimp only
  refine foldl_inv (fun st : PMap × CMap =>
    (∀ r ∈ st.1, 0 ≤ r.2) ∧ (∀ r ∈ st.2, 0 ≤ r.2)) _ _ _ ⟨h1, h2⟩ ?_
  intro st pr hpr hst
  split
  · exact ⟨padd_nonneg hst.1 hw, cadd_nonneg hst.2 hw⟩
  · exact hst

/-- The sign/shape invariant the aggregation state keeps through the
query loop when every ingested run weight is non-negative. -/
structure AccOk (s2f : SMap) (acc : Acc) : Prop where
  tsfN : ∀ r ∈ acc.tsf, 0 ≤ r.2
  tsqfN : ∀ r ∈ acc.tsqf, 0 ≤ r.2
  cuOk : ∀ r ∈ acc.cu, 0 ≤ r.2 ∧ CuKeyOk s2f r.1
  jewN : ∀ r ∈ acc.jew, 0 ≤ r.2
  jkfN : ∀ r ∈ acc.jkf, 0 ≤ r.2
  gbpN : ∀ g ∈ acc.gbp, 0 ≤ g.gRunquantity
  wfN : ∀ r ∈ acc.wf, 0 ≤ r.2

theorem accOk_processSelect (dc ds : Option String) (s2f : SMap) (aliasP cteP : LMap)
    (q : QueryStat) (acc : Acc) (sel : QExpr) (hw : 0 ≤ q.runquantity)
    (hAP : ∀ r ∈ aliasP, ∀ x ∈ r.2, isPhys x = true ∨ ∃ n, lookupS s2f n = some x)
    (h : AccOk s2f acc) : AccOk s2f (processSelect dc ds s2f aliasP cteP q acc sel) where
  tsfN := by rw [processSelect_tsf]; exact h.tsfN
  tsqfN := by rw [processSelect_tsqf]; exact h.tsqfN
  cuOk := processSelect_cu_ok dc ds s2f aliasP cteP q acc sel hw hAP h.cuOk
  jewN := (processSelect_jj_nonneg dc ds s2f aliasP cteP q acc sel hw h.jewN h.jkfN).1
  jkfN := (processSelect_jj_nonneg dc ds s2f aliasP cteP q acc sel hw h.jewN h.jkfN).2
  gbpN := processSelect_gbp_nonneg dc ds s2f aliasP cteP q acc sel hw h.gbpN
  wfN := by rw [processSelect_wf]; exact h.wfN

end SqlStatic

namespace SqlStatic

theorem accOk_processQuery (parse : String → Except Unit QStmt) (dc ds : Option String)
    (s2f : SMap) (acc : Acc) (q : QueryStat) (hw : 0 ≤ q.runquantity)
    (h : AccOk s2f acc) : AccOk s2f (processQuery parse dc ds s2f acc q) := by
  have htsf1 : ∀ r ∈ (creditsOf parse dc ds s2f q).foldl
      (fun m k => cadd m k q.runquantity) acc.tsf, 0 ≤ r.2 := by
    refine foldl_inv (fun m : CMap => ∀ r ∈ m, 0 ≤ r.2) _ _ _ h.tsfN ?_
    intro m k hk hm
    exact cadd_nonneg hm hw
  have htsqf1 : ∀ r ∈ (firstDedup (creditsOf parse dc ds s2f q)).foldl
      (fun m k => cadd m k q.runquantity) acc.tsqf, 0 ≤ r.2 := by
    refine foldl_inv (fun m : CMap => ∀ r ∈ m, 0 ≤ r.2) _ _ _ h.tsqfN ?_
    intro m k hk hm
    exact cadd_nonneg hm hw
  cases hp : parse q.query with
  | error e =>
    simp only [processQuery, hp]
    exact ⟨htsf1, htsqf1, h.cuOk, h.jewN, h.jkfN, h.gbpN, h.wfN⟩
  | ok stmt =>
    simp only [processQuery, hp]
    have hAP : ∀ r ∈ (resolveAliasMapsStmt stmt dc ds).2.map
        (fun p : String × List String =>
          (p.1, expandToPhysical p.2 (resolveAliasMapsStmt stmt dc ds).2
            (resolveAliasMapsStmt stmt dc ds).1 s2f)), ∀ x ∈ r.2,
        isPhys x = true ∨ ∃ n, lookupS s2f n = some x := by
      intro r hr x hx
      rcases List.mem_map.mp hr with ⟨p0, hp0, he⟩
      rw [← he] at hx
      exact expandToPhysical_elem _ _ _ _ x hx
    have hAcc2 : AccOk s2f ((stmtSelectsOf stmt).foldl
        (processSelect dc ds s2f
          ((resolveAliasMapsStmt stmt dc ds).2.map fun p : String × List String =>
            (p.1, expandToPhysical p.2 (resolveAliasMapsStmt stmt dc ds).2
              (resolveAliasMapsStmt stmt dc ds).1 s2f))
          ((resolveAliasMapsStmt stmt dc ds).1.map fun p : String × List String =>
            (p.1, expandToPhysical p.2 (resolveAliasMapsStmt stmt dc ds).2
              (resolveAliasMapsStmt stmt dc ds).1 s2f))
          q)
        { acc with
          tsf := (creditsOf parse dc ds s2f q).foldl
            (fun m k => cadd m k q.runquantity) acc.tsf
          tsqf := (firstDedup (creditsOf parse dc ds s2f q)).foldl
            (fun m k => cadd m k q.runquantity) acc.tsqf }) := by
      refine foldl_inv (fun a : Acc => AccOk s2f a) _ _ _ ?_ ?_
      · exact ⟨htsf1, htsqf1, h.cuOk, h.jewN, h.jkfN, h.gbpN, h.wfN⟩
      · intro a sel hsel ha
        exact accOk_processSelect dc ds s2f _ _ q a sel hw hAP ha
    refine ⟨hAcc2.tsfN, hAcc2.tsqfN, hAcc2.cuOk, hAcc2.jewN, hAcc2.jkfN, hAcc2.gbpN, ?_⟩
    refine foldl_inv (fun m : CMap => ∀ r ∈ m, 0 ≤ r.2) _ _ _ hAcc2.wfN ?_
    intro m fn hfn hm
    by_cases hnm : upperStr fn ≠ ""
    · rw [if_pos hnm]
      exact cadd_nonneg hm hw
    · rw [if_neg hnm]
      exact hm

theorem accOk_queryFold (parse : String → Except Unit QStmt) (dc ds : Option String)
    (s2f : SMap) (Q : List QueryStat) (hw : ∀ q ∈ Q, 0 ≤ q.runquantity) :
    AccOk s2f (Q.foldl (processQuery parse dc ds s2f) ⟨[], [], [], [], [], [], []⟩) := by
  refine foldl_inv (fun a : Acc => AccOk s2f a) _ _ _ ?_ ?_
  · exact ⟨fun r hr => absurd hr (List.not_mem_nil r),
      fun r hr => absurd hr (List.not_mem_nil r),
      fun r hr => absurd hr (List.not_mem_nil r),
      fun r hr => absurd hr (List.not_mem_nil r),
      fun r hr => absurd hr (List.not_mem_nil r),
      fun g hg => absurd hg (List.not_mem_nil g),
      fun r hr => absurd hr (List.not_mem_nil r)⟩
  · intro a q hq ha
    exact accOk_processQuery parse dc ds s2f a q (hw q hq) ha

end SqlStatic

namespace SqlStatic

theorem tsfPhys_nonneg (s2f : SMap) (entries : CMap) (m0 : CMap)
    (hE : ∀ r ∈ entries, 0 ≤ r.2) (h0 : ∀ r ∈ m0, 0 ≤ r.2) :
    ∀ r ∈ entries.foldl (fun m r =>
        if isPhys r.1 then cadd m r.1 r.2
        else match lookupS s2f r.1 with
          | some mapped => if isPhys mapped then cadd m mapped r.2 else m
          | none => m) m0, 0 ≤ r.2 := by
  refine foldl_inv (fun m : CMap => ∀ r ∈ m, 0 ≤ r.2) _ _ _ h0 ?_
  intro m r hr hm
  by_cases hk : isPhys r.1 = true
  · rw [if_pos hk]
    exact cadd_nonneg hm (hE r hr)
  · rw [if_neg hk]
    cases hl : lookupS s2f r.1 with
    | none => dsimp only; exact hm
    | some mp =>
      dsimp only
      by_cases hmp : isPhys mp = true
      · rw [if_pos hmp]
        exact cadd_nonneg hm (hE r hr)
      · rw [if_neg hmp]
        exact hm

theorem byTable_keys_phys (entries : CMap) (m0 : NMap)
    (h0 : ∀ r ∈ m0, isPhys r.1 = true) :
    ∀ r ∈ entries.foldl (fun m p =>
        if hasDotB p.1 then
          if (rsplitDot p.1).1 = "__unknown__" || !isPhys (rsplitDot p.1).1 then m
          else nadd m (rsplitDot p.1).1 (rsplitDot p.1).2 p.2
        else m) m0, isPhys r.1 = true := by
  refine foldl_inv (fun m : NMap => ∀ r ∈ m, isPhys r.1 = true) _ _ _ h0 ?_
  intro m p hp hm r hr
  by_cases hd : hasDotB p.1 = true
  · rw [if_pos hd] at hr
    by_cases hg : (decide ((rsplitDot p.1).1 = "__unknown__") ||
        !isPhys (rsplitDot p.1).1) = true
    · rw [if_pos hg] at hr
      exact hm r hr
    · rw [if_neg hg] at hr
      simp only [Bool.or_eq_true, not_or, Bool.not_eq_true] at hg
      rcases mem_nadd hr with h1 | h1
      · rw [h1]
        have := hg.2
        simp at this
        exact this
      · exact hm r h1
  · rw [if_neg hd] at hr
    exact hm r hr

theorem joinInv_queryFold (parse : String → Except Unit QStmt) (dc ds : Option String)
    (s2f : SMap) (Q : List QueryStat) :
    JoinInv (Q.foldl (processQuery parse dc ds s2f) ⟨[], [], [], [], [], [], []⟩).jew
      (Q.foldl (processQuery parse dc ds s2f) ⟨[], [], [], [], [], [], []⟩).jkf := by
  refine foldl_inv (fun a : Acc => JoinInv a.jew a.jkf) _ _ _ ?_ ?_
  · exact ⟨fun r hr => absurd hr (List.not_mem_nil r),
      fun kv hkv => absurd hkv (List.not_mem_nil kv)⟩
  · exact fun a q _ ha => joinInv_processQuery _ _ _ _ a q ha

end SqlStatic

namespace SqlStatic

/-- C2 (corrected): on inputs whose ingested run weights are all
non-negative, every counter of the produced pack is non-negative, and
every table key is physical — in `table_scan_freq`,
`table_scan_query_freq`, the join-edge endpoints, the table pair inside
every `join_key_freq` key, and the `hot_columns_per_table` tables —
while a `column_usage_freq` key decomposes as `base.column` where the
base is physical, the reserved `"__unknown__"` bucket, or a (possibly
non-physical) value of the short-name index.  The last case, exhibited
by `C2_counterexample`, and the sign restriction are what the
uncorrected claim lacks. -/
theorem C2_amended (parse : String → Except Unit QStmt) (ddlRaw : List RawDDL)
    (qRaw : List RawQuery) (p : ContextPack)
    (hok : buildContextPack parse ddlRaw qRaw = Except.ok p)
    (hw : ∀ q ∈ toQueryStatList qRaw, 0 ≤ q.runquantity) :
    ((∀ r ∈ p.table_scan_freq, 0 ≤ r.2 ∧ isPhys r.1 = true) ∧
      (∀ r ∈ p.table_scan_query_freq, 0 ≤ r.2 ∧ isPhys r.1 = true) ∧
      (∀ r ∈ p.column_usage_freq, 0 ≤ r.2 ∧
        CuKeyOk (shortIndexForInput parse ddlRaw qRaw) r.1)) ∧
    ((∀ e ∈ p.join_graph_edges, 0 ≤ e.2.2 ∧ isPhys e.1 = true ∧ isPhys e.2.1 = true) ∧
      (∀ r ∈ p.join_key_freq, 0 ≤ r.2 ∧ ∃ A B cA cB,
        r.1 = A ++ "|" ++ B ++ "|" ++ cA ++ "|" ++ cB ∧
          isPhys A = true ∧ isPhys B = true) ∧
      (∀ e ∈ p.hot_columns_per_table, isPhys e.1 = true)) ∧
    ((∀ r ∈ p.window_functions, 0 ≤ r.2) ∧
      (∀ g ∈ p.groupby_patterns, 0 ≤ g.gRunquantity) ∧
      (∀ r ∈ p.top_queries_by_q, 0 ≤ r.2) ∧
      0 ≤ p.total_runquantity) := by
  cases hE : extractDefault parse (toDDLList ddlRaw) with
  | error e =>
    simp only [buildContextPack, hE] at hok
    exact absurd hok (by simp)
  | ok dcds =>
    have hSI : shortIndexForInput parse ddlRaw qRaw =
        shortIndexOf parse (toDDLList ddlRaw) (toQueryStatList qRaw) dcds.1 dcds.2 := by
      unfold shortIndexForInput
      rw [hE]
    simp only [buildContextPack, hE] at hok
    rw [Except.ok.injEq] at hok
    subst hok
    dsimp only
    rw [hSI]
    have hAcc := accOk_queryFold parse dcds.1 dcds.2
      (shortIndexOf parse (toDDLList ddlRaw) (toQueryStatList qRaw) dcds.1 dcds.2)
      (toQueryStatList qRaw) hw
    have hJoin := joinInv_queryFold parse dcds.1 dcds.2
      (shortIndexOf parse (toDDLList ddlRaw) (toQueryStatList qRaw) dcds.1 dcds.2)
      (toQueryStatList qRaw)
    have hnil0 : ∀ r ∈ ([] : CMap), 0 ≤ r.2 :=
      fun r hr => absurd hr (List.not_mem_nil r)
    refine ⟨⟨?_, ?_, ?_⟩, ⟨?_, ?_, ?_⟩, ?_, ?_, ?_, ?_⟩
    · intro r hr
      exact ⟨tsfPhys_nonneg _ _ _ hAcc.tsfN hnil0 r hr,
        tsfPhys_keys_phys _ _ _
          (fun t ht => absurd ht (List.not_mem_nil t)) r hr⟩
    · intro r hr
      have hf := List.mem_filter.mp hr
      exact ⟨hAcc.tsqfN r hf.1, hf.2⟩
    · exact hAcc.cuOk
    · intro e he
      rcases List.mem_map.mp he with ⟨r, hr, rfl⟩
      have hf := List.mem_filter.mp hr
      have hb := hf.2
      rw [Bool.and_eq_true] at hb
      exact ⟨hAcc.jewN r hf.1, hb.1, hb.2⟩
    · intro r hr
      obtain ⟨A, B, cA, cB, hk, hA, hB, _, _⟩ := hJoin.2 r hr
      exact ⟨hAcc.jkfN r hr, A, B, cA, cB, hk, hA, hB⟩
    · intro e he
      rcases List.mem_map.mp he with ⟨r, hr, rfl⟩
      exact byTable_keys_phys _ _
        (fun t ht => absurd ht (List.not_mem_nil t)) r hr
    · exact hAcc.wfN
    · exact hAcc.gbpN
    · intro r hr
      rcases List.mem_map.mp hr with ⟨q0, hq0, rfl⟩
      exact hw q0 (mem_of_mem_stableSortBy (List.mem_of_mem_take hq0))
    · refine List.sum_nonneg ?_
      intro x hx
      rcases List.mem_map.mp hx with ⟨q0, hq0, rfl⟩
      exact hw q0 hq0

/-- Concrete instance of `C2_amended` at Scenario A: the scan counter of
`quests.public.h_client` is non-negative at a physical key, and the one
column-usage key decomposes over a physical base. -/
theorem C2_amended_witness :
    ∃ p, buildContextPack parseTrino ddlA qsA = Except.ok p ∧
      (∀ r ∈ p.table_scan_freq, 0 ≤ r.2 ∧ isPhys r.1 = true) ∧
      (∀ r ∈ p.column_usage_freq, 0 ≤ r.2 ∧
        CuKeyOk (shortIndexForInput parseTrino ddlA qsA) r.1) := by
  cases hE : buildContextPack parseTrino ddlA qsA with
  | error e =>
    have hs : (buildContextPack parseTrino ddlA qsA).toOption.isSome = true := by decide
    rw [hE] at hs
    simp [Except.toOption] at hs
  | ok p =>
    have h := C2_amended parseTrino ddlA qsA p hE (by decide)
    exact ⟨p, rfl, h.1.1, h.1.2.2⟩

end SqlStatic
